import Mathlib

/-!
# Verification of the portfolio site's security/validation layer

Shallow embedding of the TypeScript security and data-storage utilities
(`app/lib/security.ts`, `app/lib/data-storage.ts`, `app/lib/auth.ts`) and of
the contact-form API route (`app/api/contact/route.ts`).

Strings are modelled as `List Char`; JavaScript numbers that occur in the
verified code paths are natural-number timestamps, counters and lengths,
modelled as `Nat` (with `Int` where JS subtraction may go negative).
JSON values are modelled by the inductive `JsValue`, with JSON numbers
restricted to integers (the repository's data files carry only integer
numbers: window coordinates and z-indices).
-/

namespace Portfolio

/-- Characters treated as whitespace by JavaScript's `String.prototype.trim`
(ASCII whitespace plus the BOM and the common Unicode line/paragraph
separators that occur in the ECMAScript `TrimString` set). -/
def isJsWhitespace (c : Char) : Bool :=
  c = ' ' ∨ c = '\t' ∨ c = '\n' ∨ c = '\r' ∨ c = '\x0b' ∨ c = '\x0c' ∨
  c = ' ' ∨ c = '﻿' ∨ c = ' ' ∨ c = ' '

/-- JavaScript `String.prototype.trim`: drop leading and trailing whitespace. -/
def trimJs (s : List Char) : List Char :=
  ((s.dropWhile isJsWhitespace).reverse.dropWhile isJsWhitespace).reverse

/-- The character class `[\x00-\x1F\x7F]` removed by `sanitizeString`. -/
def isCtlChar (c : Char) : Bool :=
  c.toNat ≤ 0x1F ∨ c.toNat = 0x7F

/-- `security.ts` `sanitizeString`: trim, cut to `maxLength`, strip control
characters.  (`input.trim().slice(0, maxLength).replace(/[\x00-\x1F\x7F]/g, '')`.) -/
def sanitizeString (input : List Char) (maxLength : Nat := 1000) : List Char :=
  ((trimJs input).take maxLength).filter (fun c => ¬ isCtlChar c)

/-- `security.ts` `validateImageFile`, on the byte array obtained from the
uploaded file.  Faithful translation of the magic-byte checks; `bytes.getD i 0`
models `bytes[i]` (every read is guarded by a length test in the source). -/
def validateImageFile (bytes : List Nat) : Bool :=
  if bytes.length < 4 then false
  else if bytes.getD 0 0 = 0x89 ∧ bytes.getD 1 0 = 0x50 ∧
          bytes.getD 2 0 = 0x4E ∧ bytes.getD 3 0 = 0x47 then true
  else if bytes.getD 0 0 = 0xFF ∧ bytes.getD 1 0 = 0xD8 ∧
          bytes.getD 2 0 = 0xFF then true
  else if bytes.getD 0 0 = 0x47 ∧ bytes.getD 1 0 = 0x49 ∧
          bytes.getD 2 0 = 0x46 ∧ bytes.getD 3 0 = 0x38 then true
  else if 12 ≤ bytes.length ∧
          (bytes.getD 0 0 = 0x52 ∧ bytes.getD 1 0 = 0x49 ∧
           bytes.getD 2 0 = 0x46 ∧ bytes.getD 3 0 = 0x46 ∧
           bytes.getD 8 0 = 0x57 ∧ bytes.getD 9 0 = 0x45 ∧
           bytes.getD 10 0 = 0x42 ∧ bytes.getD 11 0 = 0x50) then true
  else false

/-- The acceptance condition exactly as the claim words it: the bytes *begin
with* the PNG signature, the JPEG signature, the GIF signature, or a RIFF
header with `WEBP` at bytes 8–11 in a file of at least 12 bytes.  (Stated for
comparison with `validateImageFile`; note the JPEG signature is only three
bytes long.) -/
def claimedImageAccept (bytes : List Nat) : Prop :=
  bytes.take 4 = [0x89, 0x50, 0x4E, 0x47] ∨
  bytes.take 3 = [0xFF, 0xD8, 0xFF] ∨
  bytes.take 4 = [0x47, 0x49, 0x46, 0x38] ∨
  (12 ≤ bytes.length ∧ bytes.take 4 = [0x52, 0x49, 0x46, 0x46] ∧
    ((bytes.drop 8).take 4 = [0x57, 0x45, 0x42, 0x50]))

instance (bytes : List Nat) : Decidable (claimedImageAccept bytes) := by
  unfold claimedImageAccept
  infer_instance

/-! ## The JavaScript value model

`JsValue` models the JSON-serializable JavaScript values flowing through the
code: `null`, booleans, numbers (restricted to integers, which covers the
repository's data), strings, arrays and plain objects (ordered field lists,
duplicate-free for values produced by `JSON.parse` or object literals). -/

inductive JsValue where
  | null : JsValue
  | bool (b : Bool) : JsValue
  | num (n : Int) : JsValue
  | str (s : List Char) : JsValue
  | arr (elems : List JsValue) : JsValue
  | obj (fields : List (List Char × JsValue)) : JsValue
deriving Repr

/-- Own-property lookup on an object's field list (first occurrence; field
lists built by the `JSON.parse` model have distinct keys, matching JS). -/
def lookupField : List (List Char × JsValue) → List Char → Option JsValue
  | [], _ => none
  | (k, v) :: rest, key => if k = key then some v else lookupField rest key

/-- JavaScript property access `v[key]` on a parsed value: `none` models
`undefined` (non-objects have none of the looked-up properties). -/
def getField (v : JsValue) (key : List Char) : Option JsValue :=
  match v with
  | .obj fields => lookupField fields key
  | _ => none

/-! ## security.ts string utilities -/

/-- The single-character replacements of `escapeHtml`'s map. -/
def escapeChar (c : Char) : List Char :=
  if c = '&' then "&amp;".data
  else if c = '<' then "&lt;".data
  else if c = '>' then "&gt;".data
  else if c = '"' then "&quot;".data
  else if c = '\'' then "&#039;".data
  else [c]

/-- `escapeHtml`: `text.replace(/[&<>"']/g, (char) => map[char])`, with the
`typeof text !== 'string'` guard returning the empty string. -/
def escapeHtml (text : JsValue) : List Char :=
  match text with
  | .str s => (s.map escapeChar).flatten
  | _ => []

/-- `sanitizeEmailHeader`: remove `\r`/`\n`, remove `<`/`>`, trim, then
`slice(0, maxLength)`; non-strings map to the empty string. -/
def sanitizeEmailHeader (value : JsValue) (maxLength : Nat := 200) : List Char :=
  match value with
  | .str s =>
      (trimJs ((s.filter (fun c => ¬ (c = '\r' ∨ c = '\n'))).filter
        (fun c => ¬ (c = '<' ∨ c = '>')))).take maxLength
  | _ => []

/-- Characters kept verbatim by `sanitizeFilename`'s first substitution
(the class `[a-zA-Z0-9._-]`); everything else becomes `_`. -/
def isFilenameSafeChar (c : Char) : Bool :=
  ('a' ≤ c ∧ c ≤ 'z') ∨ ('A' ≤ c ∧ c ≤ 'Z') ∨ ('0' ≤ c ∧ c ≤ '9') ∨
  c = '.' ∨ c = '_' ∨ c = '-'

/-- Global, left-to-right, non-overlapping replacement of `..` by `_`
(the semantics of `replace(/\.\./g, '_')`): at each position, if the next two
characters are both dots they are consumed and replaced by one `_`, otherwise
the scan advances one character. -/
def replaceDotDot : List Char → List Char
  | [] => []
  | [c] => [c]
  | c :: d :: rest =>
      if c = '.' ∧ d = '.' then '_' :: replaceDotDot rest
      else c :: replaceDotDot (d :: rest)

/-- `replace(/\.+$/, '')`: strip the maximal trailing run of dots. -/
def stripTrailingDots (l : List Char) : List Char :=
  (l.reverse.dropWhile (fun c => c = '.')).reverse

/-- `sanitized.split('.').pop()`: the segment after the last dot (the whole
string when no dot occurs). -/
def extAfterDot (l : List Char) : List Char :=
  (l.reverse.takeWhile (fun c => c ≠ '.')).reverse

/-- The chained `replace` calls of `sanitizeFilename`: whitelist characters
(`[^a-zA-Z0-9._-]` → `_`), replace `..` by `_`, strip leading dots
(`/^\.+/`), strip trailing dots (`/\.+$/`). -/
def sanitizeFilenameRaw (filename : List Char) : List Char :=
  stripTrailingDots
    ((replaceDotDot
        (filename.map (fun c => if isFilenameSafeChar c then c else '_'))).dropWhile
      (fun c => c = '.'))

/-- The length-limiting step of `sanitizeFilename`: when the sanitized name
exceeds 100 characters, keep `substring(0, 100 - ext.length - 1)` (clamped at
0 when the bound is negative, as JS `substring` does) and re-append
`'.' + ext`. -/
def sanitizeFilenameLimited (filename : List Char) : List Char :=
  if 100 < (sanitizeFilenameRaw filename).length then
    (sanitizeFilenameRaw filename).take
        (Int.toNat ((100 : Int) -
          ((extAfterDot (sanitizeFilenameRaw filename)).length : Int) - 1)) ++
      '.' :: extAfterDot (sanitizeFilenameRaw filename)
  else sanitizeFilenameRaw filename

/-- `security.ts` `sanitizeFilename`: the sanitization chain, the length
limit, and the `|| 'file'` fallback for empty results. -/
def sanitizeFilename (filename : List Char) : List Char :=
  if sanitizeFilenameLimited filename = [] then "file".data
  else sanitizeFilenameLimited filename

/-- Whether a character list contains two consecutive dots (`..`). -/
def hasDotDot : List Char → Bool
  | [] => false
  | [_] => false
  | a :: b :: rest => (a = '.' ∧ b = '.') || hasDotDot (b :: rest)

/-! ## The rate limiter (`security.ts` `rateLimitLogin`, `data-storage.ts`
second half: the generic `rateLimit` with `rateLimitLogin`/`rateLimitContact`)

The `Map` `rateLimitStore` is modelled as an association list with JavaScript
`Map` update semantics (existing keys keep their position, new keys are
appended).  `Date.now()` is passed in as the explicit `now` argument. -/

structure RateRecord where
  count : Nat
  resetTime : Nat
deriving Repr, DecidableEq

structure RateResult where
  allowed : Bool
  remaining : Nat
  resetTime : Nat
deriving Repr, DecidableEq

abbrev RateStore := List (String × RateRecord)

/-- `rateLimitStore.get(key)`. -/
def storeGet : RateStore → String → Option RateRecord
  | [], _ => none
  | (k, v) :: rest, key => if k = key then some v else storeGet rest key

/-- `rateLimitStore.set(key, value)` with JS `Map` ordering semantics. -/
def storeSet : RateStore → String → RateRecord → RateStore
  | [], key, v => [(key, v)]
  | (k, w) :: rest, key, v =>
      if k = key then (k, v) :: rest else (k, w) :: storeSet rest key v

/-- The periodic cleanup loop: when the map holds more than 1000 entries,
delete every entry whose `resetTime` lies strictly in the past. -/
def cleanupStore (st : RateStore) (now : Nat) : RateStore :=
  if 1000 < st.length then st.filter (fun kv => ¬ (kv.2.resetTime < now)) else st

/-- The generic `rateLimit(ip, prefix, windowMs, maxRequests)` step.  It reads
the record for `pfx:ip`, runs the cleanup, and then either starts a new
window, rejects an exhausted window, or increments the in-window count. -/
def rateLimit (ip pfx : String) (windowMs maxRequests now : Nat)
    (st : RateStore) : RateResult × RateStore :=
  let key := pfx ++ ":" ++ ip
  let record := storeGet st key
  let st1 := cleanupStore st now
  match record with
  | none =>
      (⟨true, maxRequests - 1, now + windowMs⟩,
       storeSet st1 key ⟨1, now + windowMs⟩)
  | some r =>
      if r.resetTime < now then
        (⟨true, maxRequests - 1, now + windowMs⟩,
         storeSet st1 key ⟨1, now + windowMs⟩)
      else if maxRequests ≤ r.count then
        (⟨false, 0, r.resetTime⟩, st1)
      else
        (⟨true, maxRequests - (r.count + 1), r.resetTime⟩,
         storeSet st1 key ⟨r.count + 1, r.resetTime⟩)

/-- `rateLimitLogin(ip)`: 15-minute window, 5 requests. -/
def rateLimitLogin (ip : String) (now : Nat) (st : RateStore) :
    RateResult × RateStore :=
  rateLimit ip "login" (15 * 60 * 1000) 5 now st

/-- `rateLimitContact(ip)`: 1-hour window, 13 requests. -/
def rateLimitContact (ip : String) (now : Nat) (st : RateStore) :
    RateResult × RateStore :=
  rateLimit ip "contact" (60 * 60 * 1000) 13 now st

/-- Run a sequence of calls to the rate limiter (one fixed ip/prefix/limits)
at the given timestamps, collecting the results. -/
def runRateLimit (ip pfx : String) (windowMs maxRequests : Nat) :
    List Nat → RateStore → List RateResult × RateStore
  | [], st => ([], st)
  | t :: ts, st =>
      let p := rateLimit ip pfx windowMs maxRequests t st
      let q := runRateLimit ip pfx windowMs maxRequests ts p.2
      (p.1 :: q.1, q.2)

/-- How many calls in a result sequence were allowed. -/
def allowedCount (rs : List RateResult) : Nat :=
  (rs.filter (fun r => r.allowed)).length

/-! ## auth.ts: `verifyAdmin` -/

/-- `decoded.admin === true` on the decoded JWT payload (property access on a
non-object yields `undefined`, which is not `=== true`). -/
def adminFieldTrue (payload : JsValue) : Bool :=
  match getField payload "admin".data with
  | some (.bool true) => true
  | _ => false

/-- `auth.ts` `verifyAdmin`.  `cookieVal` is `cookieStore.get('admin-token')?.value`
(`none` when the cookie is absent); `verify` abstracts `jwt.verify(token, secret)`
for the configured secret, with `none` modelling a throw (malformed, expired,
or wrongly-signed token).  The function's `try/catch` makes it total: every
failure path returns `false`. -/
def verifyAdmin (cookieVal : Option JsValue)
    (verify : List Char → Option JsValue) : Bool :=
  match cookieVal with
  | none => false
  | some (.str t) =>
      if t = [] then false
      else
        match verify t with
        | none => false
        | some payload => adminFieldTrue payload
  | some _ => false

/-! ## The contact route (`app/api/contact/route.ts` `POST`)

The route is modelled stage by stage, mirroring its early returns.  The
request is abstracted to: the client IP, the current time, the
`content-length` header (as a parsed number, `none` for absent or
non-numeric), and the JSON body (`none` when `request.json()` throws).  The
SMTP environment and the outcomes of `transporter.verify()` /
`transporter.sendMail()` are explicit inputs.  `RouteResult.mail` is `some`
exactly when the route reached the `sendMail` call, and records the message
it was invoked with. -/

/-- JSON error response body `{ error: msg }`. -/
def errorBody (msg : String) : JsValue :=
  .obj [("error".data, .str msg.data)]

/-- The success response body, shared by the honeypot branch and the genuine
success branch: `{ success: true, message: 'Message sent successfully!' }`. -/
def contactSuccessBody : JsValue :=
  .obj [("success".data, .bool true),
        ("message".data, .str "Message sent successfully!".data)]

structure MailMsg where
  fromHeader : List Char
  replyTo : List Char
  toAddr : List Char
  subject : List Char
  textBody : List Char
  htmlBody : List Char

structure RouteResult where
  status : Nat
  body : JsValue
  mail : Option MailMsg

structure SmtpEnv where
  smtpHost : Option (List Char)
  smtpUser : Option (List Char)
  smtpPassword : Option (List Char)
  contactEmail : Option (List Char)
  verifyOk : Bool
  sendOk : Bool

/-- `checkContentLength`: reject when the header is present and its parsed
value exceeds `maxSize` (`none` models an absent or non-numeric header). -/
def checkContentOk (contentLength : Option Nat) (maxSize : Nat) : Bool :=
  match contentLength with
  | some n => ¬ (maxSize < n)
  | none => true

/-- `parseJsonBody`'s object test `!body || typeof body !== 'object'`:
truthy values of type `'object'` are plain objects and arrays (`null` is of
type `'object'` but falsy). -/
def isObjectLike : JsValue → Bool
  | .obj _ => true
  | .arr _ => true
  | _ => false

/-- The test of `/^[^\s@]+@[^\s@]+\.[^\s@]+$/` on a string: exactly one `@`
(the class `[^\s@]` excludes `@`), a nonempty whitespace-free local part, and
a whitespace-free domain containing a dot with nonempty text on both sides
(the dot may sit anywhere strictly inside the domain, since `[^\s@]` admits
dots).  `\s` is modelled by `isJsWhitespace`. -/
def emailTest (s : List Char) : Bool :=
  match s.splitOn '@' with
  | [u, v] =>
      u ≠ [] ∧ u.all (fun c => ¬ isJsWhitespace c) ∧
      v.all (fun c => ¬ isJsWhitespace c) ∧ ((v.drop 1).dropLast).contains '.'
  | _ => false

/-- The honeypot test
`website && typeof website === 'string' && website.trim().length > 0`. -/
def isSpamHoneypot (v : Option JsValue) : Bool :=
  match v with
  | some (.str w) => ¬ (trimJs w = [])
  | _ => false

/-- Validation of the `name`/`message` fields:
`!x || typeof x !== 'string' || x.trim().length === 0` rejects; otherwise the
string passes through. -/
def validTextField (v : Option JsValue) : Option (List Char) :=
  match v with
  | some (.str s) =>
      if s = [] then none else if trimJs s = [] then none else some s
  | _ => none

/-- Validation of the `email` field:
`!email || typeof email !== 'string' || !regex.test(email)` rejects. -/
def validEmailField (v : Option JsValue) : Option (List Char) :=
  match v with
  | some (.str s) =>
      if s = [] then none else if emailTest s then some s else none
  | _ => none

/-- `escapedMessage.replace(/\n/g, '<br>')`. -/
def newlinesToBr (s : List Char) : List Char :=
  (s.map (fun c => if c = '\n' then "<br>".data else [c])).flatten

/-- The HTML email template of the route, with the three escaped values
interpolated. -/
def htmlTemplate (escapedName escapedEmail escapedMessage : List Char) :
    List Char :=
  "\n        <div style=\"font-family: Arial, sans-serif; max-width: 600px; margin: 0 auto;\">\n          <h2 style=\"color: #333;\">New Contact Form Submission</h2>\n          <div style=\"background: #f5f5f5; padding: 20px; border-radius: 8px; margin: 20px 0;\">\n            <p><strong>Name:</strong> ".data ++
  escapedName ++
  "</p>\n            <p><strong>Email:</strong> <a href=\"mailto:".data ++
  escapedEmail ++ "\">".data ++ escapedEmail ++
  "</a></p>\n          </div>\n          <div style=\"background: #fff; padding: 20px; border: 1px solid #ddd; border-radius: 8px;\">\n            <h3 style=\"color: #333; margin-top: 0;\">Message:</h3>\n            <p style=\"white-space: pre-wrap; color: #555; line-height: 1.6;\">".data ++
  newlinesToBr escapedMessage ++
  "</p>\n          </div>\n        </div>\n      ".data

/-- The route body from the honeypot check onward (after rate limiting,
content-length check and JSON parsing all passed). -/
def contactHandleBody (bv : JsValue) (env : SmtpEnv) : RouteResult :=
  if isSpamHoneypot (getField bv "website".data) then
    ⟨200, contactSuccessBody, none⟩
  else
    match validTextField (getField bv "name".data) with
    | none => ⟨400, errorBody "Name is required", none⟩
    | some name =>
      match validEmailField (getField bv "email".data) with
      | none => ⟨400, errorBody "Valid email is required", none⟩
      | some email =>
        match validTextField (getField bv "message".data) with
        | none => ⟨400, errorBody "Message is required", none⟩
        | some message =>
          let sanitizedName := sanitizeString name 100
          let sanitizedEmail := sanitizeString email 200
          let sanitizedMessage := sanitizeString message 5000
          if sanitizedName = [] ∨ sanitizedEmail = [] ∨ sanitizedMessage = [] then
            ⟨400, errorBody "Invalid input", none⟩
          else
            let safeName := sanitizeEmailHeader (.str sanitizedName) 100
            let safeEmail := sanitizeEmailHeader (.str sanitizedEmail) 200
            let escapedName := escapeHtml (.str safeName)
            let escapedEmail := escapeHtml (.str safeEmail)
            let escapedMessage := escapeHtml (.str sanitizedMessage)
            match env.smtpHost, env.smtpUser, env.smtpPassword with
            | some _, some user, some _ =>
              if env.verifyOk then
                let recipient :=
                  match env.contactEmail with
                  | some r => r
                  | none => user
                let mail : MailMsg :=
                  { fromHeader :=
                      '"' :: (safeName ++ ('"' :: ' ' :: '<' :: user) ++ ['>']),
                    replyTo := safeEmail,
                    toAddr := recipient,
                    subject := "Contact Form: ".data ++ safeName,
                    textBody :=
                      "Name: ".data ++ safeName ++ "\nEmail: ".data ++ safeEmail ++
                      "\n\nMessage:\n".data ++ sanitizedMessage,
                    htmlBody :=
                      htmlTemplate escapedName escapedEmail escapedMessage }
                if env.sendOk then ⟨200, contactSuccessBody, some mail⟩
                else
                  ⟨500,
                   errorBody "Failed to send message. Please try again later.",
                   some mail⟩
              else
                ⟨500,
                 errorBody "Email service configuration error. Please try again later.",
                 none⟩
            | _, _, _ =>
              ⟨500,
               errorBody "Email service is not configured. Please contact the administrator.",
               none⟩

/-- The route after the rate-limit gate: content-length check, JSON parsing
and object test, then the body handler. -/
def contactAfterRate (contentLength : Option Nat) (body : Option JsValue)
    (env : SmtpEnv) : RouteResult :=
  if ¬ checkContentOk contentLength (10 * 1024) then
    ⟨413, errorBody "Request too large", none⟩
  else
    match body with
    | none => ⟨400, errorBody "Invalid JSON", none⟩
    | some bv =>
        if isObjectLike bv then contactHandleBody bv env
        else ⟨400, errorBody "Invalid request", none⟩

/-- `POST /api/contact`. -/
def contactPOST (ip : String) (now : Nat) (st : RateStore)
    (contentLength : Option Nat) (body : Option JsValue) (env : SmtpEnv) :
    RouteResult × RateStore :=
  let rl := rateLimitContact ip now st
  if rl.1.allowed then (contactAfterRate contentLength body env, rl.2)
  else
    (⟨429,
      errorBody "Too many contact form submissions. Please try again later.",
      none⟩, rl.2)

/-! ## JSON serialization: `JSON.stringify(data, null, 2)`

Executable model of `JSON.stringify` with a two-space indent, following the
ECMA-262 serialization of objects and arrays (`SerializeJSONObject` /
`SerializeJSONArray` with `gap = "  "`). -/

/-- Decimal digit character. -/
def digitChar (n : Nat) : Char := Char.ofNat (48 + n)

/-- Decimal representation of a natural number, most significant digit
first. -/
def natToDigits (n : Nat) : List Char :=
  if _h : n < 10 then [digitChar n]
  else natToDigits (n / 10) ++ [digitChar (n % 10)]
termination_by n
decreasing_by
  exact Nat.div_lt_self (by omega) (by omega)

/-- JSON representation of an integer. -/
def intToDigits (n : Int) : List Char :=
  if n < 0 then '-' :: natToDigits n.natAbs else natToDigits n.toNat

/-- Lowercase hexadecimal digit character (for `\u00XX` escapes). -/
def hexDigitChar (n : Nat) : Char :=
  if n < 10 then Char.ofNat (48 + n) else Char.ofNat (87 + n)

/-- `QuoteJSONString`'s per-character escaping: `\"`, `\\`, `\b`, `\f`,
`\n`, `\r`, `\t`, and `\u00XX` for the remaining control characters; all
other characters are emitted verbatim. -/
def escapeJsonChar (c : Char) : List Char :=
  if c = '"' then ['\\', '"']
  else if c = '\\' then ['\\', '\\']
  else if c = '\n' then ['\\', 'n']
  else if c = '\r' then ['\\', 'r']
  else if c = '\t' then ['\\', 't']
  else if c = '\x08' then ['\\', 'b']
  else if c = '\x0c' then ['\\', 'f']
  else if c.toNat < 0x20 then
    ['\\', 'u', '0', '0', hexDigitChar (c.toNat / 16), hexDigitChar (c.toNat % 16)]
  else [c]

/-- A JSON string literal. -/
def quoteJson (s : List Char) : List Char :=
  '"' :: (s.map escapeJsonChar).flatten ++ ['"']

/-- The indentation emitted at nesting level `lvl` (two spaces per level). -/
def indentChars (lvl : Nat) : List Char := List.replicate (2 * lvl) ' '

mutual

/-- `JSON.stringify(v, null, 2)` at nesting level `lvl`. -/
def stringifyVal : Nat → JsValue → List Char
  | _, .null => "null".data
  | _, .bool true => "true".data
  | _, .bool false => "false".data
  | _, .num n => intToDigits n
  | _, .str s => quoteJson s
  | _, .arr [] => "[]".data
  | lvl, .arr (x :: xs) =>
      '[' :: '\n' ::
        (indentChars (lvl + 1) ++ stringifyVal (lvl + 1) x ++
          stringifyMoreElems (lvl + 1) xs ++
          '\n' :: (indentChars lvl ++ [']']))
  | _, .obj [] => "\x7b\x7d".data
  | lvl, .obj (f :: fs) =>
      '\x7b' :: '\n' ::
        (indentChars (lvl + 1) ++ stringifyField (lvl + 1) f ++
          stringifyMoreFields (lvl + 1) fs ++
          '\n' :: (indentChars lvl ++ ['\x7d']))

/-- One `"key": value` member. -/
def stringifyField : Nat → List Char × JsValue → List Char
  | lvl, (k, v) => quoteJson k ++ ':' :: ' ' :: stringifyVal lvl v

/-- The remaining array elements, each preceded by `",\n" ++ indent`. -/
def stringifyMoreElems : Nat → List JsValue → List Char
  | _, [] => []
  | lvl, y :: ys =>
      ',' :: '\n' ::
        (indentChars lvl ++ stringifyVal lvl y ++ stringifyMoreElems lvl ys)

/-- The remaining object members, each preceded by `",\n" ++ indent`. -/
def stringifyMoreFields : Nat → List (List Char × JsValue) → List Char
  | _, [] => []
  | lvl, g :: gs =>
      ',' :: '\n' ::
        (indentChars lvl ++ stringifyField lvl g ++ stringifyMoreFields lvl gs)

end

/-! ## JSON parsing: `JSON.parse`

A recursive-descent parser over `List Char`.  JSON numbers are restricted to
(optionally negative) integer literals, matching the `JsValue` model.  The
structural recursion of `parseValue` is bounded by a fuel argument; one unit
of fuel is consumed per nesting step, so `length + 1` fuel always suffices. -/

/-- The whitespace accepted between JSON tokens (ECMA-404). -/
def isJsonWs (c : Char) : Bool :=
  c = ' ' ∨ c = '\t' ∨ c = '\n' ∨ c = '\r'

def skipWs (s : List Char) : List Char := s.dropWhile isJsonWs

def isDigitChar (c : Char) : Bool := '0' ≤ c ∧ c ≤ '9'

/-- Numeric value of a digit string (most significant first). -/
def digitsToNat (ds : List Char) : Nat :=
  ds.foldl (fun acc c => 10 * acc + (c.toNat - 48)) 0

/-- Parse an integer literal. -/
def parseNumber (s : List Char) : Option (JsValue × List Char) :=
  match s with
  | [] => none
  | c :: rest =>
      if c = '-' then
        let ds := rest.takeWhile isDigitChar
        if ds = [] then none
        else some (.num (-(digitsToNat ds : Int)), rest.dropWhile isDigitChar)
      else
        let ds := (c :: rest).takeWhile isDigitChar
        if ds = [] then none
        else some (.num ((digitsToNat ds : Int)), (c :: rest).dropWhile isDigitChar)

/-- Value of one hexadecimal digit. -/
def hexVal (c : Char) : Option Nat :=
  if isDigitChar c then some (c.toNat - 48)
  else if 'a' ≤ c ∧ c ≤ 'f' then some (c.toNat - 87)
  else if 'A' ≤ c ∧ c ≤ 'F' then some (c.toNat - 55)
  else none

/-- The single-character JSON escapes. -/
def unescapeChar (e : Char) : Option Char :=
  if e = '"' then some '"'
  else if e = '\\' then some '\\'
  else if e = '/' then some '/'
  else if e = 'n' then some '\n'
  else if e = 'r' then some '\r'
  else if e = 't' then some '\t'
  else if e = 'b' then some '\x08'
  else if e = 'f' then some '\x0c'
  else none

mutual

/-- Parse a string body up to the closing quote (the opening quote has been
consumed), returning the unescaped characters and the remaining input. -/
def parseStringBody : List Char → Option (List Char × List Char)
  | [] => none
  | c :: rest =>
      if c = '"' then some ([], rest)
      else if c = '\\' then parseEscape rest
      else
        match parseStringBody rest with
        | some (s, r) => some (c :: s, r)
        | none => none

/-- Parse the four hex digits of a `\uXXXX` escape and continue. -/
def parseU : List Char → Option (List Char × List Char)
  | h1 :: h2 :: h3 :: h4 :: rest' =>
      match hexVal h1, hexVal h2, hexVal h3, hexVal h4 with
      | some a, some b, some c, some d =>
          (match parseStringBody rest' with
           | some (s, r) =>
               some (Char.ofNat (((a * 16 + b) * 16 + c) * 16 + d) :: s, r)
           | none => none)
      | _, _, _, _ => none
  | _ => none

/-- Parse the escape sequence following a backslash. -/
def parseEscape : List Char → Option (List Char × List Char)
  | [] => none
  | e :: rest =>
      if e = 'u' then parseU rest
      else
        match unescapeChar e with
        | some c =>
            (match parseStringBody rest with
             | some (s, r) => some (c :: s, r)
             | none => none)
        | none => none

end

/-- Field assembly with JavaScript object semantics: a repeated key keeps its
first position but takes the latest value (`JSON.parse` keeps the last
duplicate). -/
def setField : List (List Char × JsValue) → List Char → JsValue →
    List (List Char × JsValue)
  | [], k, v => [(k, v)]
  | (k', v') :: rest, k, v =>
      if k' = k then (k', v) :: rest else (k', v') :: setField rest k v

mutual

/-- Parse one JSON value (leading whitespace allowed). -/
def parseValue : Nat → List Char → Option (JsValue × List Char)
  | 0, _ => none
  | fuel + 1, s =>
      match skipWs s with
      | [] => none
      | c :: r =>
          if c = 'n' then
            match r with
            | 'u' :: 'l' :: 'l' :: r' => some (.null, r')
            | _ => none
          else if c = 't' then
            match r with
            | 'r' :: 'u' :: 'e' :: r' => some (.bool true, r')
            | _ => none
          else if c = 'f' then
            match r with
            | 'a' :: 'l' :: 's' :: 'e' :: r' => some (.bool false, r')
            | _ => none
          else if c = '"' then
            match parseStringBody r with
            | some (str, r') => some (.str str, r')
            | none => none
          else if c = '[' then
            let r2 := skipWs r
            if r2.head? = some ']' then some (.arr [], r2.tail)
            else
              match parseElems fuel r2 with
              | some (xs, r') => some (.arr xs, r')
              | none => none
          else if c = '\x7b' then
            let r2 := skipWs r
            if r2.head? = some '\x7d' then some (.obj [], r2.tail)
            else
              match parseFields fuel [] r2 with
              | some (fs, r') => some (.obj fs, r')
              | none => none
          else parseNumber (c :: r)

/-- Parse the elements of a nonempty array (after `[` and any whitespace). -/
def parseElems : Nat → List Char → Option (List JsValue × List Char)
  | 0, _ => none
  | fuel + 1, s =>
      match parseValue fuel s with
      | none => none
      | some (v, r) =>
          let r2 := skipWs r
          if r2.head? = some ',' then
            match parseElems fuel r2.tail with
            | some (vs, r') => some (v :: vs, r')
            | none => none
          else if r2.head? = some ']' then some ([v], r2.tail)
          else none

/-- Parse the members of a nonempty object (after the opening brace and any
whitespace), assembling fields with `setField`. -/
def parseFields : Nat → List (List Char × JsValue) → List Char →
    Option (List (List Char × JsValue) × List Char)
  | 0, _, _ => none
  | fuel + 1, acc, s =>
      let t := skipWs s
      if t.head? = some '"' then
        match parseStringBody t.tail with
        | none => none
        | some (k, r) =>
            let r2 := skipWs r
            if r2.head? = some ':' then
              match parseValue fuel r2.tail with
              | none => none
              | some (v, r3) =>
                  let r4 := skipWs r3
                  if r4.head? = some ',' then
                    parseFields fuel (setField acc k v) r4.tail
                  else if r4.head? = some '\x7d' then
                    some (setField acc k v, r4.tail)
                  else none
            else none
      else none

end

/-- `JSON.parse`: parse one value, allow trailing whitespace, reject
anything else left over (`none` models a throw). -/
def parseJson (s : List Char) : Option JsValue :=
  match parseValue (s.length + 1) s with
  | some (v, rest) => if skipWs rest = [] then some v else none
  | none => none

/-! ## `safeJsonParse` (`security.ts`) -/

/-- The test `'__proto__' in parsed`.  The JavaScript `in` operator walks the
prototype chain, and `Object.prototype` carries the legacy `__proto__`
accessor property (ECMA-262 B.2.2.1), so for values produced by `JSON.parse`
this test is true for EVERY plain object and every array, whether or not the
JSON text carried an own `__proto__` key. -/
def protoInParsed (v : JsValue) : Bool :=
  match v with
  | .obj _ => true
  | .arr _ => true
  | _ => false

/-- `safeJsonParse`: `JSON.parse` inside try/catch, then the prototype-
pollution check `parsed && typeof parsed === 'object' && '__proto__' in parsed`
(the first two conjuncts are `isObjectLike`). -/
def safeJsonParse (json : List Char) : Option JsValue :=
  match parseJson json with
  | none => none
  | some parsed =>
      if isObjectLike parsed ∧ protoInParsed parsed then none
      else some parsed

/-! ## data-storage.ts: `normalizeImageUrls`, `writeDataFile`, `readDataFile`

The storage substrate is one association list per backend: the Vercel KV
(serverless) and the filesystem under `app/data` (local / bundled files).
Both store the serialized string, exactly as the code does. -/

/-- `value.replace(/\\/g, '/')`. -/
def replaceBackslashes (s : List Char) : List Char :=
  s.map (fun c => if c = '\\' then '/' else c)

/-- `typeof value === 'string' ? value.replace(/\\/g, '/') : value`. -/
def normalizeUrlValue (v : JsValue) : JsValue :=
  match v with
  | .str s => .str (replaceBackslashes s)
  | _ => v

def isStrVal : JsValue → Bool
  | .str _ => true
  | _ => false

def isArrVal : JsValue → Bool
  | .arr _ => true
  | _ => false

/-- One element of a project `images` array: `{...img, url: ...}` when the
element is a non-null object with a `url` property; anything else is kept
as-is (no recursion, matching the source). -/
def normalizeImageItem (img : JsValue) : JsValue :=
  match img with
  | .obj fs =>
      if (lookupField fs "url".data).isSome then
        .obj (fs.map (fun kv =>
          if kv.1 = "url".data then (kv.1, normalizeUrlValue kv.2) else kv))
      else img
  | _ => img

/-- The `images` branch: map `normalizeImageItem` over the array. -/
def normalizeImagesArray (v : JsValue) : JsValue :=
  match v with
  | .arr imgs => .arr (imgs.map normalizeImageItem)
  | w => w

mutual

/-- `data-storage.ts` `normalizeImageUrls`: rewrite backslashes to forward
slashes in `imageUrl`/`fileUrl` fields, in string-valued `url` fields, and in
the `url` of each element of an `images` array; recurse everywhere else. -/
def normalizeImageUrls : JsValue → JsValue
  | .arr xs => .arr (normalizeImageUrlsList xs)
  | .obj fields => .obj (normalizeImageUrlsFields fields)
  | v => v

def normalizeImageUrlsList : List JsValue → List JsValue
  | [] => []
  | x :: xs => normalizeImageUrls x :: normalizeImageUrlsList xs

def normalizeImageUrlsFields :
    List (List Char × JsValue) → List (List Char × JsValue)
  | [] => []
  | (k, v) :: rest =>
      (if k = "imageUrl".data ∨ k = "fileUrl".data ∨
          (k = "url".data ∧ isStrVal v) then
        (k, normalizeUrlValue v)
      else if k = "images".data ∧ isArrVal v then
        (k, normalizeImagesArray v)
      else (k, normalizeImageUrls v)) :: normalizeImageUrlsFields rest

end

/-- Which backend the code selects (`isServerless()`); fixed for a given
deployment, per the claim's "fixed environment". -/
inductive StorageEnv where
  | serverless : StorageEnv
  | localDev : StorageEnv
deriving Repr, DecidableEq

abbrev StrStore := List (String × List Char)

def assocGet : StrStore → String → Option (List Char)
  | [], _ => none
  | (k, v) :: rest, key => if k = key then some v else assocGet rest key

def assocSet : StrStore → String → List Char → StrStore
  | [], key, v => [(key, v)]
  | (k, w) :: rest, key, v =>
      if k = key then (k, v) :: rest else (k, w) :: assocSet rest key v

/-- The two string stores the data layer can touch. -/
structure StorageState where
  kv : StrStore
  fs : StrStore
deriving Repr

def getKVKey (filename : String) : String := "data:" ++ filename

/-- `join(process.cwd(), 'app', 'data', filename)`, relative to the cwd. -/
def dataPath (filename : String) : String := "app/data/" ++ filename

/-- `writeDataFile`: serialize with `JSON.stringify(data, null, 2)` and store
it in the KV (serverless) or the data file (local). -/
def writeDataFile (env : StorageEnv) (filename : String) (data : JsValue)
    (st : StorageState) : StorageState :=
  let content := stringifyVal 0 data
  match env with
  | .serverless => { st with kv := assocSet st.kv (getKVKey filename) content }
  | .localDev => { st with fs := assocSet st.fs (dataPath filename) content }

/-- `readDataFile`: fetch the stored string (KV first in serverless mode,
falling back to the bundled file when the KV entry is missing or empty —
`if (kvData)` treats the empty string as absent), `JSON.parse` it, and
normalize image URLs.  `none` models the error paths (missing file or parse
error), which the source re-throws. -/
def readDataFile (env : StorageEnv) (filename : String) (st : StorageState) :
    Option JsValue :=
  let content? :=
    match env with
    | .serverless =>
        match assocGet st.kv (getKVKey filename) with
        | some c =>
            if c = [] then assocGet st.fs (dataPath filename) else some c
        | none => assocGet st.fs (dataPath filename)
    | .localDev => assocGet st.fs (dataPath filename)
  match content? with
  | none => none
  | some content =>
      match parseJson content with
      | none => none
      | some parsed => some (normalizeImageUrls parsed)

/-! ## Auxiliary predicates and measures used by the statements and proofs -/

/-- A JavaScript value is well-formed when every object in it has pairwise
distinct keys — true of every value a JS program can hold, since JS objects
cannot carry duplicate properties. -/
def keyFresh (k : List Char) (fs : List (List Char × JsValue)) : Bool :=
  fs.all (fun g => ¬ g.1 = k)

mutual

def jsWf : JsValue → Bool
  | .arr xs => jsWfList xs
  | .obj fs => jsWfFields fs
  | _ => true

def jsWfList : List JsValue → Bool
  | [] => true
  | x :: xs => jsWf x && jsWfList xs

def jsWfFields : List (List Char × JsValue) → Bool
  | [] => true
  | (k, v) :: rest => keyFresh k rest && jsWf v && jsWfFields rest

end

/-- The input does not start with a decimal digit (so a preceding number
token cannot absorb it). -/
def headNotDigit : List Char → Bool
  | [] => true
  | c :: _ => ¬ isDigitChar c

/-- The characters that can start a serialized JSON value. -/
def goodStart (c : Char) : Bool :=
  c = 'n' ∨ c = 't' ∨ c = 'f' ∨ c = '"' ∨ c = '[' ∨ c = '\x7b' ∨
  c = '-' ∨ isDigitChar c

mutual

/-- Fuel sufficient for `parseValue` on the serialized form of a value
(one unit per `parseValue`/`parseElems`/`parseFields` nesting step). -/
def fuelFor : JsValue → Nat
  | .arr [] => 1
  | .arr (x :: xs) => 1 + fuelForElems x xs
  | .obj [] => 1
  | .obj (f :: fs) => 1 + fuelForFields f fs
  | _ => 1
termination_by v => sizeOf v
decreasing_by all_goals simp_arith

def fuelForElems : JsValue → List JsValue → Nat
  | x, [] => 1 + fuelFor x
  | x, y :: ys => 1 + max (fuelFor x) (fuelForElems y ys)
termination_by x xs => 1 + sizeOf x + sizeOf xs
decreasing_by all_goals simp_arith

def fuelForFields : (List Char × JsValue) → List (List Char × JsValue) → Nat
  | (_, v), [] => 1 + fuelFor v
  | (_, v), g :: gs => 1 + max (fuelFor v) (fuelForFields g gs)
termination_by f gs => 1 + sizeOf f + sizeOf gs
decreasing_by all_goals simp_arith

end

/-!
# Theorems

Shared helper lemmas first, then one main theorem per claim (with its
counterexample and witness where applicable).
-/

/-! ## Helper lemmas: list access -/

theorem take4_eq_iff (l : List Nat) (a b c d : Nat) :
    l.take 4 = [a, b, c, d] ↔
      4 ≤ l.length ∧ l.getD 0 0 = a ∧ l.getD 1 0 = b ∧ l.getD 2 0 = c ∧
        l.getD 3 0 = d := by
  rcases l with _ | ⟨x0, _ | ⟨x1, _ | ⟨x2, _ | ⟨x3, t⟩⟩⟩⟩ <;>
    simp [List.getD] <;> omega

theorem take3_eq_iff (l : List Nat) (a b c : Nat) :
    l.take 3 = [a, b, c] ↔
      3 ≤ l.length ∧ l.getD 0 0 = a ∧ l.getD 1 0 = b ∧ l.getD 2 0 = c := by
  rcases l with _ | ⟨x0, _ | ⟨x1, _ | ⟨x2, t⟩⟩⟩ <;>
    simp [List.getD] <;> omega

theorem getD_drop_nat (l : List Nat) (n i : Nat) :
    (l.drop n).getD i 0 = l.getD (n + i) 0 := by
  simp [List.getD, List.getElem?_drop]

/-! ## C3: validateImageFile -/

/-- C3, counterexample to the claim as stated: the three-byte file
`FF D8 FF` *begins with* the JPEG signature, yet `validateImageFile`
returns `false` for it (the `bytes.length < 4` guard fires first). -/
theorem validateImageFile_short_jpeg_counterexample :
    validateImageFile [0xFF, 0xD8, 0xFF] = false ∧
    claimedImageAccept [0xFF, 0xD8, 0xFF] := by
  exact ⟨rfl, by decide⟩

/-- C3 (amended): `validateImageFile` returns `true` iff the file is at
least 4 bytes long **and** its bytes begin with the PNG signature, the JPEG
signature, the GIF signature, or a RIFF header whose bytes 8–11 spell WEBP
in a file of at least 12 bytes; in particular it returns `false` for every
file shorter than 4 bytes. -/
theorem validateImageFile_magic_bytes (bytes : List Nat) :
    (validateImageFile bytes = true ↔
      4 ≤ bytes.length ∧ claimedImageAccept bytes) ∧
    (bytes.length < 4 → validateImageFile bytes = false) := by
  unfold validateImageFile claimedImageAccept
  rw [take4_eq_iff, take3_eq_iff, take4_eq_iff, take4_eq_iff, take4_eq_iff,
    getD_drop_nat, getD_drop_nat, getD_drop_nat, getD_drop_nat, List.length_drop]
  split_ifs <;>
    simp only [eq_self_iff_true, true_iff, Bool.false_eq_true, false_iff,
      not_and, not_or, not_le, not_lt, false_implies, true_implies] <;>
    (norm_num [List.getD] at *) <;> omega

/-- C3 witness: the amended theorem applied at a PNG-signature file and at
a 3-byte file. -/
theorem validateImageFile_magic_bytes_witness :
    validateImageFile [137, 80, 78, 71] = true ∧
    validateImageFile [1, 2, 3] = false :=
  ⟨((validateImageFile_magic_bytes [137, 80, 78, 71]).1).mpr (by decide),
   (validateImageFile_magic_bytes [1, 2, 3]).2 (by decide)⟩

/-! ## Helper lemmas: contact route branch analysis -/

theorem contactHandleBody_no429 (bv : JsValue) (env : SmtpEnv) :
    (contactHandleBody bv env).status ≠ 429 := by
  unfold contactHandleBody
  repeat' split <;> try simp

theorem contactHandleBody_200 (bv : JsValue) (env : SmtpEnv) :
    (contactHandleBody bv env).status = 200 →
      (contactHandleBody bv env).body = contactSuccessBody := by
  unfold contactHandleBody
  repeat' split <;> try simp

theorem contactAfterRate_no429 (cl : Option Nat) (body : Option JsValue)
    (env : SmtpEnv) : (contactAfterRate cl body env).status ≠ 429 := by
  unfold contactAfterRate
  repeat' split <;> try simp [contactHandleBody_no429]
  all_goals apply contactHandleBody_no429

/-! ## Helper lemmas: rate limiter, and C1 / C7 -/

theorem storeGet_storeSet_self (st : RateStore) (k : String) (v : RateRecord) :
    storeGet (storeSet st k v) k = some v := by
  induction st with
  | nil => simp [storeSet, storeGet]
  | cons hd tl ih =>
      obtain ⟨k', w⟩ := hd
      by_cases h : k' = k <;> simp [storeSet, storeGet, h, ih]

theorem storeGet_filter (st : RateStore) (k : String) (r : RateRecord)
    (p : String × RateRecord → Bool)
    (hget : storeGet st k = some r) (hp : p (k, r) = true) :
    storeGet (st.filter p) k = some r := by
  induction st with
  | nil => simp [storeGet] at hget
  | cons hd tl ih =>
      obtain ⟨k', w⟩ := hd
      by_cases h : k' = k
      · subst h
        simp [storeGet] at hget
        subst hget
        simp [List.filter_cons, hp, storeGet]
      · simp [storeGet, h] at hget
        rcases hw : p (k', w) <;>
          simp [List.filter_cons, hw, storeGet, h, ih hget]

theorem storeGet_cleanup (st : RateStore) (now : Nat) (k : String)
    (r : RateRecord) (hget : storeGet st k = some r)
    (hlive : ¬ (r.resetTime < now)) :
    storeGet (cleanupStore st now) k = some r := by
  unfold cleanupStore
  split
  · exact storeGet_filter st k r _ hget (by simpa using hlive)
  · exact hget

theorem rateLimit_fresh (ip pfx : String) (wm mr now : Nat) (st : RateStore)
    (h : storeGet st (pfx ++ ":" ++ ip) = none ∨
         ∃ r, storeGet st (pfx ++ ":" ++ ip) = some r ∧ r.resetTime < now) :
    (rateLimit ip pfx wm mr now st).1 = ⟨true, mr - 1, now + wm⟩ ∧
    storeGet (rateLimit ip pfx wm mr now st).2 (pfx ++ ":" ++ ip) =
      some ⟨1, now + wm⟩ := by
  rcases h with h | ⟨r, hr, hexp⟩
  · simp only [rateLimit, h]
    exact ⟨trivial, storeGet_storeSet_self _ _ _⟩
  · simp only [rateLimit, hr, if_pos hexp]
    exact ⟨trivial, storeGet_storeSet_self _ _ _⟩

theorem rateLimit_under (ip pfx : String) (wm mr now : Nat) (st : RateStore)
    (r : RateRecord) (hr : storeGet st (pfx ++ ":" ++ ip) = some r)
    (hlive : ¬ (r.resetTime < now)) (hcount : r.count < mr) :
    (rateLimit ip pfx wm mr now st).1 =
      ⟨true, mr - (r.count + 1), r.resetTime⟩ ∧
    storeGet (rateLimit ip pfx wm mr now st).2 (pfx ++ ":" ++ ip) =
      some ⟨r.count + 1, r.resetTime⟩ := by
  simp only [rateLimit, hr, if_neg hlive, if_neg (by omega : ¬ (mr ≤ r.count))]
  exact ⟨trivial, storeGet_storeSet_self _ _ _⟩

theorem rateLimit_over (ip pfx : String) (wm mr now : Nat) (st : RateStore)
    (r : RateRecord) (hr : storeGet st (pfx ++ ":" ++ ip) = some r)
    (hlive : ¬ (r.resetTime < now)) (hcount : mr ≤ r.count) :
    (rateLimit ip pfx wm mr now st).1 = ⟨false, 0, r.resetTime⟩ ∧
    storeGet (rateLimit ip pfx wm mr now st).2 (pfx ++ ":" ++ ip) = some r := by
  simp only [rateLimit, hr, if_neg hlive, if_pos hcount]
  exact ⟨trivial, storeGet_cleanup st now _ r hr hlive⟩

theorem runRateLimit_inWindow (ip pfx : String) (wm mr rt : Nat)
    (ts : List Nat) :
    ∀ c st, storeGet st (pfx ++ ":" ++ ip) = some ⟨c, rt⟩ →
    (∀ t ∈ ts, t ≤ rt) →
    ((runRateLimit ip pfx wm mr ts st).1.map (fun r => r.allowed)) =
      (List.range ts.length).map (fun i => decide (c + i < mr)) := by
  induction ts with
  | nil => intro c st _ _; simp [runRateLimit]
  | cons t ts ih =>
      intro c st hget hts
      have htle : t ≤ rt := hts t (by simp)
      have hlive : ¬ ((⟨c, rt⟩ : RateRecord).resetTime < t) := by
        show ¬ rt < t
        omega
      simp only [runRateLimit, List.map_cons, List.length_cons,
        List.range_succ_eq_map, List.map_map]
      by_cases hc : c < mr
      · have step := rateLimit_under ip pfx wm mr t st ⟨c, rt⟩ hget hlive hc
        rw [step.1, ih (c + 1) _ step.2 (fun u hu => hts u (by simp [hu]))]
        congr 1
        · simp [hc]
        · apply List.map_congr_left
          intro i _
          simp only [Function.comp_apply, Nat.succ_eq_add_one]
          rw [decide_eq_decide]
          omega
      · have step := rateLimit_over ip pfx wm mr t st ⟨c, rt⟩ hget hlive
          (by show mr ≤ c; omega)
        rw [step.1, ih c _ step.2 (fun u hu => hts u (by simp [hu]))]
        congr 1
        · simp
          omega
        · apply List.map_congr_left
          intro i _
          simp only [Function.comp_apply, Nat.succ_eq_add_one]
          rw [decide_eq_decide]
          omega

theorem runRateLimit_freshWindow (ip pfx : String) (wm mr now : Nat)
    (ts : List Nat) (st : RateStore) (hmr : 0 < mr)
    (hfresh : storeGet st (pfx ++ ":" ++ ip) = none ∨
      ∃ r, storeGet st (pfx ++ ":" ++ ip) = some r ∧ r.resetTime < now)
    (hts : ∀ t ∈ ts, t ≤ now + wm) :
    ((runRateLimit ip pfx wm mr (now :: ts) st).1.map (fun r => r.allowed)) =
      (List.range (ts.length + 1)).map (fun k => decide (k < mr)) := by
  have step := rateLimit_fresh ip pfx wm mr now st hfresh
  simp only [runRateLimit, List.map_cons, List.length_cons,
    List.range_succ_eq_map, List.map_map]
  rw [step.1, runRateLimit_inWindow ip pfx wm mr (now + wm) ts 1 _ step.2 hts]
  congr 1
  · simp [hmr]
  · apply List.map_congr_left
    intro i _
    simp only [Function.comp_apply, Nat.succ_eq_add_one]
    rw [decide_eq_decide]
    omega

theorem countP_range_lt (n m : Nat) :
    ((List.range n).countP (fun i => decide (i < m))) = min n m := by
  induction n with
  | zero => simp
  | succ n ih =>
      rw [List.range_succ, List.countP_append, ih]
      by_cases h : n < m <;> simp [List.countP_cons, h] <;> omega

theorem allowedCount_of_map (rs : List RateResult) (g : Nat → Bool) (n : Nat)
    (h : rs.map (fun r => r.allowed) = (List.range n).map g) :
    allowedCount rs = (List.range n).countP g := by
  unfold allowedCount
  rw [← List.countP_eq_length_filter]
  calc List.countP (fun r => r.allowed) rs
      = List.countP (fun b => b) (rs.map (fun r => r.allowed)) := by
        rw [List.countP_map]; rfl
    _ = List.countP (fun b => b) ((List.range n).map g) := by rw [h]
    _ = List.countP g (List.range n) := by rw [List.countP_map]; rfl

/-- C1 -/
theorem rateLimitLogin_window (ip : String) (now : Nat) (st : RateStore) :
    ((storeGet st ("login" ++ ":" ++ ip) = none ∨
        (∃ r, storeGet st ("login" ++ ":" ++ ip) = some r ∧ r.resetTime < now)) →
      (rateLimitLogin ip now st).1 = ⟨true, 4, now + 15 * 60 * 1000⟩ ∧
      storeGet (rateLimitLogin ip now st).2 ("login" ++ ":" ++ ip) =
        some ⟨1, now + 15 * 60 * 1000⟩) ∧
    (∀ r, storeGet st ("login" ++ ":" ++ ip) = some r → ¬ (r.resetTime < now) →
      r.count < 5 →
      (rateLimitLogin ip now st).1 = ⟨true, 5 - (r.count + 1), r.resetTime⟩ ∧
      storeGet (rateLimitLogin ip now st).2 ("login" ++ ":" ++ ip) =
        some ⟨r.count + 1, r.resetTime⟩) ∧
    (∀ r, storeGet st ("login" ++ ":" ++ ip) = some r → ¬ (r.resetTime < now) →
      5 ≤ r.count →
      (rateLimitLogin ip now st).1 = ⟨false, 0, r.resetTime⟩ ∧
      storeGet (rateLimitLogin ip now st).2 ("login" ++ ":" ++ ip) = some r) ∧
    (∀ ts : List Nat, (∀ t ∈ ts, t ≤ now + 15 * 60 * 1000) →
      (storeGet st ("login" ++ ":" ++ ip) = none ∨
        (∃ r, storeGet st ("login" ++ ":" ++ ip) = some r ∧ r.resetTime < now)) →
      allowedCount
        (runRateLimit ip "login" (15 * 60 * 1000) 5 (now :: ts) st).1 ≤ 5) := by
  refine ⟨?_, ?_, ?_, ?_⟩
  · intro h
    exact rateLimit_fresh ip "login" (15 * 60 * 1000) 5 now st h
  · intro r hr hlive hcount
    exact rateLimit_under ip "login" _ 5 now st r hr hlive hcount
  · intro r hr hlive hcount
    exact rateLimit_over ip "login" _ 5 now st r hr hlive hcount
  · intro ts hts hfresh
    have hmap := runRateLimit_freshWindow ip "login" _ 5 now ts st (by omega)
      hfresh hts
    rw [allowedCount_of_map _ _ _ hmap, countP_range_lt]
    omega

theorem rateLimitLogin_window_witness :
    (rateLimitLogin "1.2.3.4" 0 []).1 = ⟨true, 4, 900000⟩ ∧
    allowedCount
      (runRateLimit "1.2.3.4" "login" 900000 5 [0, 1, 2, 3, 4, 5, 6] []).1 ≤ 5 := by
  have T := rateLimitLogin_window "1.2.3.4" 0 []
  exact ⟨(T.1 (Or.inl rfl)).1,
    T.2.2.2 [1, 2, 3, 4, 5, 6] (by decide) (Or.inl rfl)⟩

/-- C7 -/
theorem contactPOST_429_iff (ip : String) (now : Nat) (st : RateStore)
    (cl : Option Nat) (body : Option JsValue) (env : SmtpEnv) :
    ((contactPOST ip now st cl body env).1.status = 429 ↔
      (rateLimitContact ip now st).1.allowed = false) ∧
    ((rateLimitContact ip now st).1.allowed = false →
      (contactPOST ip now st cl body env).1 =
        ⟨429,
         errorBody "Too many contact form submissions. Please try again later.",
         none⟩) ∧
    (∀ ts : List Nat, (∀ t ∈ ts, t ≤ now + 60 * 60 * 1000) →
      storeGet st ("contact" ++ ":" ++ ip) = none →
      ((runRateLimit ip "contact" (60 * 60 * 1000) 13 (now :: ts) st).1.map
          (fun r => r.allowed)) =
        (List.range (ts.length + 1)).map (fun k => decide (k < 13)) ∧
      allowedCount
        (runRateLimit ip "contact" (60 * 60 * 1000) 13 (now :: ts) st).1 ≤ 13) := by
  refine ⟨?_, ?_, ?_⟩
  · rcases h : (rateLimitContact ip now st).1.allowed
    · simp [contactPOST, h]
    · simp [contactPOST, h, contactAfterRate_no429 cl body env]
  · intro h
    simp [contactPOST, h]
  · intro ts hts hfresh
    have hmap := runRateLimit_freshWindow ip "contact" _ 13 now ts st (by omega)
      (Or.inl hfresh) hts
    exact ⟨hmap, by rw [allowedCount_of_map _ _ _ hmap, countP_range_lt]; omega⟩

theorem contactPOST_429_iff_witness :
    (contactPOST "9.9.9.9" 5 [("contact:9.9.9.9", ⟨13, 10⟩)] none none
        ⟨none, none, none, none, false, false⟩).1 =
      ⟨429,
       errorBody "Too many contact form submissions. Please try again later.",
       none⟩ ∧
    ((runRateLimit "9.9.9.9" "contact" 3600000 13 [0, 1] []).1.map
        (fun r => r.allowed)) = [true, true] := by
  have T := contactPOST_429_iff "9.9.9.9" 5 [("contact:9.9.9.9", ⟨13, 10⟩)]
    none none ⟨none, none, none, none, false, false⟩
  have T2 := contactPOST_429_iff "9.9.9.9" 0 [] none none
    ⟨none, none, none, none, false, false⟩
  refine ⟨T.2.1 rfl, ?_⟩
  have h := (T2.2.2 [1] (by decide) rfl).1
  simpa using h

/-! ## C5: escapeHtml -/

theorem escapeChar_no_forbidden (x c : Char) (h : c ∈ escapeChar x) :
    c ≠ '<' ∧ c ≠ '>' ∧ c ≠ '"' ∧ c ≠ '\'' := by
  unfold escapeChar at h
  split_ifs at h with h1 h2 h3 h4 h5
  · simp only [String.data] at h
    fin_cases h <;> decide
  · simp only [String.data] at h
    fin_cases h <;> decide
  · simp only [String.data] at h
    fin_cases h <;> decide
  · simp only [String.data] at h
    fin_cases h <;> decide
  · simp only [String.data] at h
    fin_cases h <;> decide
  · simp only [List.mem_singleton] at h
    subst h
    exact ⟨h2, h3, h4, h5⟩

/-- C5: `escapeHtml` performs exactly the per-character replacement of `&`,
`<`, `>`, `"` and `'` by their HTML entities; consequently its output
contains none of `<`, `>`, `"`, `'`; non-strings map to the empty string. -/
theorem escapeHtml_escapes (s : List Char) (v : JsValue) :
    escapeHtml (.str s) = (s.map escapeChar).flatten ∧
    escapeChar '&' = "&amp;".data ∧
    escapeChar '<' = "&lt;".data ∧
    escapeChar '>' = "&gt;".data ∧
    escapeChar '"' = "&quot;".data ∧
    escapeChar '\'' = "&#039;".data ∧
    (∀ c, c ≠ '&' → c ≠ '<' → c ≠ '>' → c ≠ '"' → c ≠ '\'' →
      escapeChar c = [c]) ∧
    (∀ c ∈ escapeHtml (.str s), c ≠ '<' ∧ c ≠ '>' ∧ c ≠ '"' ∧ c ≠ '\'') ∧
    (isStrVal v = false → escapeHtml v = []) := by
  refine ⟨rfl, by decide, by decide, by decide, by decide, by decide, ?_, ?_, ?_⟩
  · intro c n1 n2 n3 n4 n5
    simp [escapeChar, n1, n2, n3, n4, n5]
  · intro c hc
    simp only [escapeHtml, List.mem_flatten, List.mem_map] at hc
    obtain ⟨l, ⟨x, _, rfl⟩, hcl⟩ := hc
    exact escapeChar_no_forbidden x c hcl
  · intro hv
    cases v <;> simp_all [escapeHtml, isStrVal]

/-- C5 witness. -/
theorem escapeHtml_escapes_witness :
    escapeChar 'x' = ['x'] ∧
    (('<' ∈ escapeHtml (.str ('a' :: '<' :: 'b' :: []))) → False) ∧
    escapeHtml (.num 3) = [] := by
  obtain ⟨-, -, -, -, -, -, h7, h8, h9⟩ :=
    escapeHtml_escapes ('a' :: '<' :: 'b' :: []) (.num 3)
  exact ⟨h7 'x' (by decide) (by decide) (by decide) (by decide) (by decide),
    fun hc => (h8 '<' hc).1 rfl, h9 rfl⟩

/-! ## C6: verifyAdmin -/


/-- C6: `verifyAdmin` is total (never throws; every failure path yields
`false`), returns `false` when the cookie is absent, not a string, or the
token fails verification (malformed, expired, wrongly signed), and returns
`true` exactly when verification succeeds and the decoded payload's `admin`
field is `=== true`.  `verify` abstracts `jwt.verify` with the configured
secret; the hypothesis `verify [] = none` records that the empty token never
verifies. -/
theorem verifyAdmin_spec (cookieVal : Option JsValue)
    (verify : List Char → Option JsValue) (hv : verify [] = none) :
    (verifyAdmin cookieVal verify = true ↔
      ∃ t payload, cookieVal = some (.str t) ∧ verify t = some payload ∧
        adminFieldTrue payload = true) ∧
    (cookieVal = none → verifyAdmin cookieVal verify = false) ∧
    (∀ v, cookieVal = some v → isStrVal v = false →
      verifyAdmin cookieVal verify = false) ∧
    (∀ t, cookieVal = some (.str t) → verify t = none →
      verifyAdmin cookieVal verify = false) := by
  refine ⟨?_, ?_, ?_, ?_⟩
  · constructor
    · intro h
      match cookieVal with
      | none => simp [verifyAdmin] at h
      | some (.str t) =>
          by_cases ht : t = []
          · subst ht; simp [verifyAdmin] at h
          · rcases hver : verify t with _ | payload
            · simp [verifyAdmin, ht, hver] at h
            · exact ⟨t, payload, rfl, hver,
                by simpa [verifyAdmin, ht, hver] using h⟩
      | some .null => simp [verifyAdmin] at h
      | some (.bool b) => simp [verifyAdmin] at h
      | some (.num n) => simp [verifyAdmin] at h
      | some (.arr xs) => simp [verifyAdmin] at h
      | some (.obj fs) => simp [verifyAdmin] at h
    · rintro ⟨t, payload, rfl, hver, hadm⟩
      by_cases ht : t = []
      · subst ht; rw [hv] at hver; exact absurd hver (by simp)
      · simp [verifyAdmin, ht, hver, hadm]
  · rintro rfl; rfl
  · rintro v rfl hns
    cases v <;> simp_all [verifyAdmin, isStrVal]
  · rintro t rfl hver
    by_cases ht : t = [] <;> simp [verifyAdmin, ht, hver]

/-- C6 witness: a concrete verifier accepting exactly one token with an
admin payload. -/
theorem verifyAdmin_spec_witness :
    verifyAdmin (some (.str ('o' :: 'k' :: [])))
      (fun t => if t = ('o' :: 'k' :: [])
        then some (.obj [("admin".data, .bool true)]) else none) = true ∧
    verifyAdmin none
      (fun t => if t = ('o' :: 'k' :: [])
        then some (.obj [("admin".data, .bool true)]) else none) = false := by
  have T1 := verifyAdmin_spec (some (.str ('o' :: 'k' :: [])))
    (fun t => if t = ('o' :: 'k' :: [])
      then some (.obj [("admin".data, .bool true)]) else none) rfl
  have T2 := verifyAdmin_spec none
    (fun t => if t = ('o' :: 'k' :: [])
      then some (.obj [("admin".data, .bool true)]) else none) rfl
  refine ⟨T1.1.mpr ⟨'o' :: 'k' :: [], .obj [("admin".data, .bool true)],
    rfl, rfl, rfl⟩, T2.2.1 rfl⟩

/-! ## C2: the contact honeypot -/

theorem contactAfterRate_200 (cl : Option Nat) (body : Option JsValue)
    (env : SmtpEnv) : (contactAfterRate cl body env).status = 200 →
    (contactAfterRate cl body env).body = contactSuccessBody := by
  unfold contactAfterRate
  repeat' split <;> try simp
  all_goals apply contactHandleBody_200

/-- C2: a parsed body whose `website` honeypot field is a string with
nonempty trim yields the exact success response (status 200, the shared
success body) with the SMTP send path never reached; and every 200 response
of the route carries that same body, so the honeypot response is
indistinguishable from a genuine success. -/
theorem contactPOST_honeypot (ip : String) (now : Nat) (st : RateStore)
    (cl : Option Nat) (body : Option JsValue) (env : SmtpEnv) (bv : JsValue)
    (w : List Char)
    (hallow : (rateLimitContact ip now st).1.allowed = true)
    (hcl : checkContentOk cl (10 * 1024) = true)
    (hbody : body = some bv)
    (hweb : getField bv "website".data = some (.str w))
    (htrim : trimJs w ≠ []) :
    (contactPOST ip now st cl body env).1 = ⟨200, contactSuccessBody, none⟩ ∧
    (∀ ip' now' st' cl' body' env',
      (contactPOST ip' now' st' cl' body' env').1.status = 200 →
      (contactPOST ip' now' st' cl' body' env').1.body = contactSuccessBody) := by
  constructor
  · have hobj : isObjectLike bv = true := by
      cases bv <;> simp_all [getField, isObjectLike]
    have hspam : isSpamHoneypot (getField bv "website".data) = true := by
      simp [isSpamHoneypot, hweb, htrim]
    simp [contactPOST, hallow, contactAfterRate, hcl, hbody, hobj,
      contactHandleBody, hspam]
  · intro ip' now' st' cl' body' env'
    rcases h : (rateLimitContact ip' now' st').1.allowed
    · intro h200
      simp [contactPOST, h] at h200
    · intro h200
      simp only [contactPOST, h, if_pos] at h200 ⊢
      exact contactAfterRate_200 cl' body' env' h200

/-- C2 witness: a concrete honeypot submission. -/
theorem contactPOST_honeypot_witness :
    (contactPOST "1.1.1.1" 0 [] none
        (some (.obj [("website".data, .str ('x' :: []))]))
        ⟨none, none, none, none, false, false⟩).1 =
      ⟨200, contactSuccessBody, none⟩ := by
  exact (contactPOST_honeypot "1.1.1.1" 0 [] none
    (some (.obj [("website".data, .str ('x' :: []))]))
    ⟨none, none, none, none, false, false⟩
    (.obj [("website".data, .str ('x' :: []))]) ('x' :: [])
    rfl rfl rfl rfl (by decide)).1

/-! ## C4: sanitizeEmailHeader -/

set_option maxHeartbeats 1000000 in
theorem mail_branch_shape (cl : Option Nat) (body : Option JsValue)
    (env : SmtpEnv) (m : MailMsg)
    (hm : (contactAfterRate cl body env).mail = some m) :
    ∃ bv n e user,
      body = some bv ∧
      validTextField (getField bv "name".data) = some n ∧
      validEmailField (getField bv "email".data) = some e ∧
      env.smtpUser = some user ∧
      m.replyTo = sanitizeEmailHeader (.str (sanitizeString e 200)) 200 ∧
      m.fromHeader = '"' :: (sanitizeEmailHeader (.str (sanitizeString n 100)) 100 ++
        ('"' :: ' ' :: '<' :: user) ++ ['>']) ∧
      m.subject = "Contact Form: ".data ++
        sanitizeEmailHeader (.str (sanitizeString n 100)) 100 := by
  simp only [contactAfterRate, contactHandleBody] at hm
  split at hm
  · exact absurd hm (by simp)
  · split at hm
    · exact absurd hm (by simp)
    · rename_i bv
      split at hm
      · split at hm
        · exact absurd hm (by simp)
        · split at hm
          · exact absurd hm (by simp)
          · rename_i n hn
            split at hm
            · exact absurd hm (by simp)
            · rename_i e he
              split at hm
              · exact absurd hm (by simp)
              · rename_i msg hmsg
                split at hm
                · exact absurd hm (by simp)
                · split at hm
                  · rename_i hostv userv pwv hhost huser hpw
                    split at hm
                    · split at hm <;>
                        (simp only [Option.some.injEq] at hm
                         refine ⟨bv, n, e, userv, rfl, hn, he, huser, ?_, ?_, ?_⟩ <;>
                           simp [← hm])
                    · exact absurd hm (by simp)
                  · exact absurd hm (by simp)
      · exact absurd hm (by simp)

theorem mem_of_mem_trimJs {c : Char} {l : List Char} (h : c ∈ trimJs l) :
    c ∈ l := by
  unfold trimJs at h
  rw [List.mem_reverse] at h
  have h1 := (List.dropWhile_sublist _).subset h
  rw [List.mem_reverse] at h1
  exact (List.dropWhile_sublist _).subset h1

/-- C4: `sanitizeEmailHeader` output never contains CR, LF, `<` or `>`, and
never exceeds `maxLength`; non-strings map to `""`; and the contact route
builds its `from`/`replyTo`/`subject` headers from `sanitizeEmailHeader`
applied to the (sanitized) `name` and `email` fields. -/
theorem sanitizeEmailHeader_safe (s : List Char) (maxLength : Nat) :
    (('\r' ∉ sanitizeEmailHeader (.str s) maxLength) ∧
     ('\n' ∉ sanitizeEmailHeader (.str s) maxLength) ∧
     ('<' ∉ sanitizeEmailHeader (.str s) maxLength) ∧
     ('>' ∉ sanitizeEmailHeader (.str s) maxLength)) ∧
    (sanitizeEmailHeader (.str s) maxLength).length ≤ maxLength ∧
    (∀ v : JsValue, isStrVal v = false → sanitizeEmailHeader v maxLength = []) ∧
    (∀ cl body env m, (contactAfterRate cl body env).mail = some m →
      ∃ bv n e user,
        body = some bv ∧
        validTextField (getField bv "name".data) = some n ∧
        validEmailField (getField bv "email".data) = some e ∧
        env.smtpUser = some user ∧
        m.replyTo = sanitizeEmailHeader (.str (sanitizeString e 200)) 200 ∧
        m.fromHeader = '"' ::
          (sanitizeEmailHeader (.str (sanitizeString n 100)) 100 ++
            ('"' :: ' ' :: '<' :: user) ++ ['>']) ∧
        m.subject = "Contact Form: ".data ++
          sanitizeEmailHeader (.str (sanitizeString n 100)) 100) := by
  have key : ∀ c ∈ sanitizeEmailHeader (.str s) maxLength,
      ¬(c = '\r' ∨ c = '\n') ∧ ¬(c = '<' ∨ c = '>') := by
    intro c hc
    unfold sanitizeEmailHeader at hc
    have h1 := (List.take_sublist _ _).subset hc
    have h2 := mem_of_mem_trimJs h1
    have h3 := List.mem_filter.mp h2
    have h4 := List.mem_filter.mp h3.1
    exact ⟨by simpa using h4.2, by simpa using h3.2⟩
  refine ⟨⟨fun h => (key _ h).1 (Or.inl rfl), fun h => (key _ h).1 (Or.inr rfl),
    fun h => (key _ h).2 (Or.inl rfl), fun h => (key _ h).2 (Or.inr rfl)⟩,
    ?_, ?_, mail_branch_shape⟩
  · unfold sanitizeEmailHeader
    rw [List.length_take]
    exact Nat.min_le_left _ _
  · intro v hv
    cases v <;> simp_all [sanitizeEmailHeader, isStrVal]

/-- C4 witness: concrete header sanitization plus the route's construction
of the reply-to header on a concrete valid submission. -/
theorem sanitizeEmailHeader_safe_witness :
    ('\r' ∉ sanitizeEmailHeader (.str ('a' :: '\r' :: '<' :: 'b' :: [])) 3) ∧
    (sanitizeEmailHeader (.str ('a' :: '\r' :: '<' :: 'b' :: [])) 3).length ≤ 3 ∧
    sanitizeEmailHeader .null 5 = [] ∧
    (∃ m, (contactAfterRate none
        (some (.obj [("name".data, .str "Bob".data),
                     ("email".data, .str "a@b.c".data),
                     ("message".data, .str "hi".data)]))
        ⟨some "h".data, some "u".data, some "p".data, none, true, true⟩).mail =
          some m ∧
      m.replyTo =
        sanitizeEmailHeader (.str (sanitizeString "a@b.c".data 200)) 200) := by
  have T := sanitizeEmailHeader_safe ('a' :: '\r' :: '<' :: 'b' :: []) 3
  refine ⟨T.1.1, T.2.1, T.2.2.1 .null rfl, ?_⟩
  have hsome : (contactAfterRate none
      (some (.obj [("name".data, .str "Bob".data),
                   ("email".data, .str "a@b.c".data),
                   ("message".data, .str "hi".data)]))
      ⟨some "h".data, some "u".data, some "p".data, none, true, true⟩).mail.isSome
        = true := rfl
  rcases hm : (contactAfterRate none
      (some (.obj [("name".data, .str "Bob".data),
                   ("email".data, .str "a@b.c".data),
                   ("message".data, .str "hi".data)]))
      ⟨some "h".data, some "u".data, some "p".data, none, true, true⟩).mail
    with _ | m
  · rw [hm] at hsome; exact absurd hsome (by simp)
  · obtain ⟨bv, n, e, user, hbv, hn, he, hu, hreply, -, -⟩ :=
      (sanitizeEmailHeader_safe ('a' :: []) 3).2.2.2 _ _ _ m hm
    injection hbv with hbv
    subst hbv
    have he' : e = "a@b.c".data := by
      rw [show validEmailField (getField (JsValue.obj
        [("name".data, .str "Bob".data), ("email".data, .str "a@b.c".data),
         ("message".data, .str "hi".data)]) "email".data) =
          some ("a@b.c".data) from rfl] at he
      exact ((Option.some.injEq _ _).mp he).symm
    exact ⟨m, rfl, by rw [hreply, he']⟩

/-! ## C9: sanitizeFilename -/

theorem replaceDotDot_cons_ne_dot (d : Char) (rest : List Char)
    (hd : d ≠ '.') : ∃ ys, replaceDotDot (d :: rest) = d :: ys := by
  cases rest with
  | nil => exact ⟨[], rfl⟩
  | cons e rest' =>
      refine ⟨replaceDotDot (e :: rest'), ?_⟩
      rw [replaceDotDot, if_neg (by simp [hd])]

theorem replaceDotDot_no_dotdot (l : List Char) :
    hasDotDot (replaceDotDot l) = false := by
  induction l using replaceDotDot.induct with
  | case1 => simp [replaceDotDot, hasDotDot]
  | case2 c => simp [replaceDotDot, hasDotDot]
  | case3 c d rest hcd ih =>
      rcases hR : replaceDotDot rest with _ | ⟨y, ys⟩
      · simp [replaceDotDot, hcd, hR, hasDotDot]
      · rw [hR] at ih
        simp [replaceDotDot, hcd, hR, hasDotDot, ih]
  | case4 c d rest hcd ih =>
      by_cases hc : c = '.'
      · have hd : d ≠ '.' := by
          intro hd; exact hcd ⟨hc, hd⟩
        obtain ⟨ys, hys⟩ := replaceDotDot_cons_ne_dot d rest hd
        rw [hys] at ih
        simp [replaceDotDot, hcd, hys, hasDotDot, ih, hd]
      · rcases hR : replaceDotDot (d :: rest) with _ | ⟨y, ys⟩
        · simp [replaceDotDot, hcd, hR, hasDotDot]
        · rw [hR] at ih
          simp [replaceDotDot, hcd, hR, hasDotDot, ih, hc]

theorem replaceDotDot_length (l : List Char) :
    (replaceDotDot l).length ≤ l.length := by
  induction l using replaceDotDot.induct with
  | case1 => simp [replaceDotDot]
  | case2 c => simp [replaceDotDot]
  | case3 c d rest hcd ih => simp [replaceDotDot, hcd]; omega
  | case4 c d rest hcd ih =>
      rw [replaceDotDot, if_neg hcd]
      simp only [List.length_cons] at *
      omega

theorem replaceDotDot_mem (l : List Char) :
    ∀ c ∈ replaceDotDot l, c ∈ l ∨ c = '_' := by
  induction l using replaceDotDot.induct with
  | case1 => simp [replaceDotDot]
  | case2 c => simp [replaceDotDot]
  | case3 c d rest hcd ih =>
      intro x hx
      rw [replaceDotDot, if_pos hcd] at hx
      rcases List.mem_cons.mp hx with hx | hx
      · exact Or.inr hx
      · rcases ih x hx with h | h
        · exact Or.inl (by simp [h])
        · exact Or.inr h
  | case4 c d rest hcd ih =>
      intro x hx
      rw [replaceDotDot, if_neg hcd] at hx
      rcases List.mem_cons.mp hx with hx | hx
      · exact Or.inl (by simp [hx])
      · rcases ih x hx with h | h
        · exact Or.inl (by simp at h ⊢; tauto)
        · exact Or.inr h

theorem hasDotDot_append_left (xs ys : List Char)
    (h : hasDotDot xs = true) : hasDotDot (xs ++ ys) = true := by
  induction xs using hasDotDot.induct with
  | case1 => simp [hasDotDot] at h
  | case2 c => simp [hasDotDot] at h
  | case3 a b rest ih =>
      rw [hasDotDot] at h
      rcases (Bool.or_eq_true _ _).mp h with h1 | h1
      · show hasDotDot (a :: b :: (rest ++ ys)) = true
        rw [hasDotDot]
        simp only [h1, Bool.true_or]
      · show hasDotDot (a :: b :: (rest ++ ys)) = true
        rw [hasDotDot]
        have := ih h1
        simp only [List.cons_append] at this
        simp [this]

theorem hasDotDot_ne_nil (ys : List Char) (h : hasDotDot ys = true) :
    ys ≠ [] := by
  intro hy; subst hy; simp [hasDotDot] at h

theorem hasDotDot_append_right (xs ys : List Char)
    (h : hasDotDot ys = true) : hasDotDot (xs ++ ys) = true := by
  induction xs with
  | nil => simpa using h
  | cons a xs ih =>
      rcases hxy : xs ++ ys with _ | ⟨b, t⟩
      · exact absurd (List.append_eq_nil.mp hxy).2 (hasDotDot_ne_nil ys h)
      · show hasDotDot (a :: (xs ++ ys)) = true
        rw [hxy, hasDotDot]
        rw [hxy] at ih
        simp [ih]

theorem stripTrailingDots_decomp (l : List Char) :
    ∃ t, l = stripTrailingDots l ++ t := by
  refine ⟨((l.reverse.takeWhile (fun c => c = '.'))).reverse, ?_⟩
  unfold stripTrailingDots
  conv_lhs => rw [← List.reverse_reverse l,
    ← List.takeWhile_append_dropWhile (p := fun c => c = '.') (l := l.reverse)]
  rw [List.reverse_append]

theorem mem_stripTrailingDots {c : Char} {l : List Char}
    (h : c ∈ stripTrailingDots l) : c ∈ l := by
  unfold stripTrailingDots at h
  rw [List.mem_reverse] at h
  have := (List.dropWhile_sublist _).subset h
  rwa [List.mem_reverse] at this

theorem mem_extAfterDot {c : Char} {l : List Char}
    (h : c ∈ extAfterDot l) : c ∈ l := by
  unfold extAfterDot at h
  rw [List.mem_reverse] at h
  have := (List.takeWhile_sublist _).subset h
  rwa [List.mem_reverse] at this

theorem sanitizeFilenameRaw_no_dotdot (s : List Char) :
    hasDotDot (sanitizeFilenameRaw s) = false := by
  by_contra h
  rw [Bool.not_eq_false] at h
  unfold sanitizeFilenameRaw at h
  obtain ⟨t, ht⟩ := stripTrailingDots_decomp
    ((replaceDotDot (s.map (fun c => if isFilenameSafeChar c then c else '_'))).dropWhile
      (fun c => c = '.'))
  have h3 : hasDotDot
      ((replaceDotDot (s.map (fun c => if isFilenameSafeChar c then c else '_'))).dropWhile
        (fun c => c = '.')) = true := by
    rw [ht]
    exact hasDotDot_append_left _ _ h
  have h2 : hasDotDot
      (replaceDotDot (s.map (fun c => if isFilenameSafeChar c then c else '_'))) = true := by
    conv_lhs => rw [← List.takeWhile_append_dropWhile
      (p := fun c => c = '.')
      (l := replaceDotDot (s.map (fun c => if isFilenameSafeChar c then c else '_')))]
    exact hasDotDot_append_right _ _ h3
  rw [replaceDotDot_no_dotdot] at h2
  exact absurd h2 (by simp)

theorem sanitizeFilenameRaw_safe (s : List Char) :
    ∀ c ∈ sanitizeFilenameRaw s, isFilenameSafeChar c = true := by
  intro c hc
  unfold sanitizeFilenameRaw at hc
  have hc3 := mem_stripTrailingDots hc
  have hc2 := (List.dropWhile_sublist _).subset hc3
  rcases replaceDotDot_mem _ c hc2 with h | h
  · rcases List.mem_map.mp h with ⟨x, _, rfl⟩
    by_cases hs : isFilenameSafeChar x
    · simpa [hs]
    · simp only [hs, if_false, Bool.false_eq_true]
      decide
  · subst h; decide

theorem sanitizeFilename_safe (s : List Char) :
    ∀ c ∈ sanitizeFilename s, isFilenameSafeChar c = true := by
  intro c hc
  unfold sanitizeFilename at hc
  split at hc
  · fin_cases hc <;> decide
  · unfold sanitizeFilenameLimited at hc
    split at hc
    · rcases List.mem_append.mp hc with h | h
      · exact sanitizeFilenameRaw_safe s c ((List.take_sublist _ _).subset h)
      · rcases List.mem_cons.mp h with rfl | h
        · decide
        · exact sanitizeFilenameRaw_safe s c (mem_extAfterDot h)
    · exact sanitizeFilenameRaw_safe s c hc

theorem stripTrailingDots_length (l : List Char) :
    (stripTrailingDots l).length ≤ l.length := by
  unfold stripTrailingDots
  rw [List.length_reverse]
  calc (l.reverse.dropWhile (fun c => c = '.')).length
      ≤ l.reverse.length := (List.dropWhile_sublist _).length_le
    _ = l.length := List.length_reverse _

theorem sanitizeFilenameRaw_length (s : List Char) :
    (sanitizeFilenameRaw s).length ≤ s.length := by
  unfold sanitizeFilenameRaw
  calc (stripTrailingDots
        ((replaceDotDot (s.map (fun c => if isFilenameSafeChar c then c else '_'))).dropWhile
          (fun c => c = '.'))).length
      ≤ ((replaceDotDot (s.map (fun c => if isFilenameSafeChar c then c else '_'))).dropWhile
          (fun c => c = '.')).length := stripTrailingDots_length _
    _ ≤ (replaceDotDot (s.map (fun c => if isFilenameSafeChar c then c else '_'))).length :=
        (List.dropWhile_sublist _).length_le
    _ ≤ (s.map (fun c => if isFilenameSafeChar c then c else '_')).length :=
        replaceDotDot_length _
    _ = s.length := List.length_map _ _

/-- C9, counterexample to the claim as stated: on 101 safe characters the
truncation step produces a 102-character result (the whole name is taken as
the "extension" and re-appended after a dot), and a name engineered so the
truncation cut ends at a dot makes the output contain `..`. -/
theorem sanitizeFilename_claim_counterexample :
    100 < (sanitizeFilename (List.replicate 101 'a')).length ∧
    hasDotDot (sanitizeFilename
      (List.replicate 97 'a' ++ ('.' :: 'b' :: 'b' :: '.' :: 'c' :: []))) = true := by
  constructor <;> decide

/-- C9 (amended): `sanitizeFilename` always returns a nonempty string free of
`/` and `\`; and for inputs of at most 100 characters (where the truncation
branch cannot fire) the result also contains no `..` and is at most 100
characters long. -/
theorem sanitizeFilename_spec (s : List Char) :
    (sanitizeFilename s ≠ [] ∧ '/' ∉ sanitizeFilename s ∧
      '\\' ∉ sanitizeFilename s) ∧
    (s.length ≤ 100 →
      hasDotDot (sanitizeFilename s) = false ∧
      (sanitizeFilename s).length ≤ 100) := by
  constructor
  · refine ⟨?_, ?_, ?_⟩
    · unfold sanitizeFilename
      split
      · decide
      · assumption
    · intro h
      have := sanitizeFilename_safe s '/' h
      exact absurd this (by decide)
    · intro h
      have := sanitizeFilename_safe s '\\' h
      exact absurd this (by decide)
  · intro hs
    have h4 : (sanitizeFilenameRaw s).length ≤ 100 :=
      le_trans (sanitizeFilenameRaw_length s) hs
    have hlim : sanitizeFilenameLimited s = sanitizeFilenameRaw s := by
      unfold sanitizeFilenameLimited
      rw [if_neg (by omega)]
    constructor
    · unfold sanitizeFilename
      split
      · decide
      · rw [hlim]
        exact sanitizeFilenameRaw_no_dotdot s
    · unfold sanitizeFilename
      split
      · decide
      · rw [hlim]
        exact h4

/-- C9 witness. -/
theorem sanitizeFilename_spec_witness :
    sanitizeFilename ('m' :: 'y' :: '/' :: 'f' :: []) ≠ [] ∧
    hasDotDot (sanitizeFilename ('a' :: '.' :: '.' :: 'b' :: [])) = false ∧
    (sanitizeFilename ('a' :: '.' :: '.' :: 'b' :: [])).length ≤ 100 :=
  ⟨(sanitizeFilename_spec _).1.1,
   ((sanitizeFilename_spec ('a' :: '.' :: '.' :: 'b' :: [])).2 (by decide)).1,
   ((sanitizeFilename_spec ('a' :: '.' :: '.' :: 'b' :: [])).2 (by decide)).2⟩

/-! ## C10: safeJsonParse -/

/-- C10 (code bug): on the valid JSON object `{"a":1}` — which carries no own
`__proto__` key — `JSON.parse` succeeds, yet `safeJsonParse` returns `null`,
because `'__proto__' in parsed` consults the prototype chain and
`Object.prototype`'s legacy `__proto__` accessor makes it true for every
object and array.  Primitives still pass through, and invalid JSON yields
`null` without throwing. -/
theorem safeJsonParse_rejects_plain_object :
    parseJson ('\x7b' :: '"' :: 'a' :: '"' :: ':' :: '1' :: '\x7d' :: []) =
      some (.obj [(('a' :: []), .num 1)]) ∧
    lookupField [(('a' :: []), JsValue.num 1)] "__proto__".data = none ∧
    safeJsonParse ('\x7b' :: '"' :: 'a' :: '"' :: ':' :: '1' :: '\x7d' :: []) =
      none ∧
    safeJsonParse ('5' :: []) = some (.num 5) ∧
    safeJsonParse ('x' :: []) = none :=
  ⟨rfl, rfl, rfl, rfl, rfl⟩

/-! ## Helper lemmas: decimal digits and number parsing -/

theorem digitChar_isDigit (n : Nat) (h : n < 10) :
    isDigitChar (digitChar n) = true := by
  interval_cases n <;> decide

theorem digitChar_toNat (n : Nat) (h : n < 10) :
    (digitChar n).toNat = 48 + n := by
  interval_cases n <;> decide

theorem natToDigits_all_digits (n : Nat) :
    ∀ c ∈ natToDigits n, isDigitChar c = true := by
  induction n using natToDigits.induct with
  | case1 n h =>
      intro c hc
      rw [natToDigits, dif_pos h] at hc
      rcases List.mem_singleton.mp hc with rfl
      exact digitChar_isDigit n h
  | case2 n h ih =>
      intro c hc
      rw [natToDigits, dif_neg h] at hc
      rcases List.mem_append.mp hc with h1 | h1
      · exact ih c h1
      · rcases List.mem_singleton.mp h1 with rfl
        exact digitChar_isDigit _ (Nat.mod_lt _ (by omega))

theorem natToDigits_ne_nil (n : Nat) : natToDigits n ≠ [] := by
  rw [natToDigits]
  split <;> simp

theorem digitsToNat_append_one (ds : List Char) (c : Char) :
    digitsToNat (ds ++ [c]) = 10 * digitsToNat ds + (c.toNat - 48) := by
  unfold digitsToNat
  rw [List.foldl_append]
  rfl

theorem digitsToNat_natToDigits (n : Nat) :
    digitsToNat (natToDigits n) = n := by
  induction n using natToDigits.induct with
  | case1 n h =>
      rw [natToDigits, dif_pos h]
      unfold digitsToNat
      simp [digitChar_toNat n h]
  | case2 n h ih =>
      rw [natToDigits, dif_neg h, digitsToNat_append_one, ih,
        digitChar_toNat _ (Nat.mod_lt _ (by omega))]
      omega

theorem takeWhile_append_of_all {p : Char → Bool} {l : List Char}
    (r : List Char) (hl : ∀ c ∈ l, p c = true) :
    (l ++ r).takeWhile p = l ++ r.takeWhile p := by
  induction l with
  | nil => simp
  | cons a l ih =>
      have ha := hl a (by simp)
      simp only [List.cons_append, List.takeWhile_cons, ha, if_true]
      rw [ih (fun c hc => hl c (by simp [hc]))]

theorem dropWhile_append_of_all {p : Char → Bool} {l : List Char}
    (r : List Char) (hl : ∀ c ∈ l, p c = true) :
    (l ++ r).dropWhile p = r.dropWhile p := by
  induction l with
  | nil => simp
  | cons a l ih =>
      have ha := hl a (by simp)
      simp only [List.cons_append, List.dropWhile_cons, ha, if_true]
      exact ih (fun c hc => hl c (by simp [hc]))

theorem takeWhile_eq_nil_of_headNotDigit (r : List Char)
    (hr : headNotDigit r = true) : r.takeWhile isDigitChar = [] := by
  cases r with
  | nil => rfl
  | cons a r =>
      rcases h : isDigitChar a
      · simp [List.takeWhile_cons, h]
      · exfalso
        unfold headNotDigit at hr
        simp [h] at hr

theorem dropWhile_eq_self_of_headNotDigit (r : List Char)
    (hr : headNotDigit r = true) : r.dropWhile isDigitChar = r := by
  cases r with
  | nil => rfl
  | cons a r =>
      rcases h : isDigitChar a
      · simp [List.dropWhile_cons, h]
      · exfalso
        unfold headNotDigit at hr
        simp [h] at hr

theorem parseNumber_natToDigits (n : Nat) (rest : List Char)
    (hrest : headNotDigit rest = true) :
    parseNumber (natToDigits n ++ rest) = some (.num (n : Int), rest) := by
  rcases hd : natToDigits n with _ | ⟨c, cs⟩
  · exact absurd hd (natToDigits_ne_nil n)
  · have hcd : isDigitChar c = true :=
      natToDigits_all_digits n c (by rw [hd]; exact List.mem_cons_self c cs)
    have hcne : ¬ (c = '-') := by
      intro hc
      subst hc
      simp [isDigitChar] at hcd
    unfold parseNumber
    simp only [List.cons_append, if_neg hcne]
    have htake : ((c :: cs) ++ rest).takeWhile isDigitChar = c :: cs := by
      rw [takeWhile_append_of_all rest (by rw [← hd]; exact natToDigits_all_digits n),
        takeWhile_eq_nil_of_headNotDigit rest hrest, List.append_nil]
    have hdrop : ((c :: cs) ++ rest).dropWhile isDigitChar = rest := by
      rw [dropWhile_append_of_all rest (by rw [← hd]; exact natToDigits_all_digits n),
        dropWhile_eq_self_of_headNotDigit rest hrest]
    simp only [List.cons_append] at htake hdrop
    rw [htake, hdrop]
    rw [if_neg (by simp), ← hd, digitsToNat_natToDigits]

theorem parseNumber_intToDigits (n : Int) (rest : List Char)
    (hrest : headNotDigit rest = true) :
    parseNumber (intToDigits n ++ rest) = some (.num n, rest) := by
  unfold intToDigits
  split
  · rename_i hneg
    have h1 : parseNumber (('-' :: natToDigits n.natAbs) ++ rest) =
        some (.num (-(n.natAbs : Int)), rest) := by
      unfold parseNumber
      simp only [List.cons_append, if_pos rfl]
      rw [takeWhile_append_of_all rest (natToDigits_all_digits n.natAbs),
        takeWhile_eq_nil_of_headNotDigit rest hrest, List.append_nil,
        dropWhile_append_of_all rest (natToDigits_all_digits n.natAbs),
        dropWhile_eq_self_of_headNotDigit rest hrest,
        if_neg (natToDigits_ne_nil n.natAbs), digitsToNat_natToDigits]
      simp
    rw [h1]
    have habs : ((n.natAbs : Int)) = -n := by omega
    rw [habs, neg_neg]
  · rename_i hpos
    rw [parseNumber_natToDigits n.toNat rest hrest]
    have habs : ((n.toNat : Int)) = n := by omega
    rw [habs]

/-! ## Helper lemmas: JSON string escaping round-trip -/

theorem hexVal_hexDigitChar (n : Nat) (h : n < 16) :
    hexVal (hexDigitChar n) = some n := by
  interval_cases n <;> decide

theorem parseStringBody_quote (l : List Char) :
    parseStringBody ('"' :: l) = some ([], l) := by
  rw [parseStringBody, if_pos rfl]

theorem parseStringBody_backslash (l : List Char) :
    parseStringBody ('\\' :: l) = parseEscape l := by
  rw [parseStringBody, if_neg (by decide), if_pos rfl]

theorem parseStringBody_other (c : Char) (l : List Char) (h1 : ¬ (c = '"'))
    (h2 : ¬ (c = '\\')) :
    parseStringBody (c :: l) =
      match parseStringBody l with
      | some (s, r) => some (c :: s, r)
      | none => none := by
  rw [parseStringBody, if_neg h1, if_neg h2]

theorem parseEscape_single (e c : Char) (l : List Char) (he : ¬ (e = 'u'))
    (hu : unescapeChar e = some c) :
    parseEscape (e :: l) =
      match parseStringBody l with
      | some (s, r) => some (c :: s, r)
      | none => none := by
  rw [parseEscape, if_neg he, hu]

theorem parseEscape_u (h1 h2 h3 h4 : Char) (a b c d : Nat) (l : List Char)
    (ha : hexVal h1 = some a) (hb : hexVal h2 = some b)
    (hc : hexVal h3 = some c) (hd : hexVal h4 = some d) :
    parseEscape ('u' :: h1 :: h2 :: h3 :: h4 :: l) =
      match parseStringBody l with
      | some (s, r) =>
          some (Char.ofNat (((a * 16 + b) * 16 + c) * 16 + d) :: s, r)
      | none => none := by
  rw [parseEscape, if_pos rfl, parseU, ha, hb, hc, hd]

theorem escapeJsonChar_ctl (c : Char) (h1 : ¬ (c = '"'))
    (h2 : ¬ (c = '\\')) (h3 : ¬ (c = '\n')) (h4 : ¬ (c = '\r'))
    (h5 : ¬ (c = '\t')) (h6 : ¬ (c = '\x08')) (h7 : ¬ (c = '\x0c'))
    (h8 : c.toNat < 0x20) :
    escapeJsonChar c =
      ['\\', 'u', '0', '0', hexDigitChar (c.toNat / 16),
       hexDigitChar (c.toNat % 16)] := by
  unfold escapeJsonChar
  rw [if_neg h1, if_neg h2, if_neg h3, if_neg h4, if_neg h5, if_neg h6,
    if_neg h7, if_pos h8]

theorem escapeJsonChar_other (c : Char) (h1 : ¬ (c = '"'))
    (h2 : ¬ (c = '\\')) (h3 : ¬ (c = '\n')) (h4 : ¬ (c = '\r'))
    (h5 : ¬ (c = '\t')) (h6 : ¬ (c = '\x08')) (h7 : ¬ (c = '\x0c'))
    (h8 : ¬ (c.toNat < 0x20)) : escapeJsonChar c = [c] := by
  unfold escapeJsonChar
  rw [if_neg h1, if_neg h2, if_neg h3, if_neg h4, if_neg h5, if_neg h6,
    if_neg h7, if_neg h8]

theorem parseStringBody_escaped (s : List Char) (rest : List Char) :
    parseStringBody ((s.map escapeJsonChar).flatten ++ '"' :: rest) =
      some (s, rest) := by
  induction s with
  | nil =>
      simp only [List.map_nil, List.flatten_nil, List.nil_append]
      exact parseStringBody_quote rest
  | cons c s ih =>
      simp only [List.map_cons, List.flatten_cons, List.append_assoc]
      by_cases h1 : c = '"'
      · subst h1
        rw [show escapeJsonChar '"' = ['\\', '"'] from rfl]
        simp only [List.cons_append, List.nil_append]
        rw [parseStringBody_backslash,
          parseEscape_single '"' '"' _ (by decide) rfl, ih]
      · by_cases h2 : c = '\\'
        · subst h2
          rw [show escapeJsonChar '\\' = ['\\', '\\'] from rfl]
          simp only [List.cons_append, List.nil_append]
          rw [parseStringBody_backslash,
            parseEscape_single '\\' '\\' _ (by decide) rfl, ih]
        · by_cases h3 : c = '\n'
          · subst h3
            rw [show escapeJsonChar '\n' = ['\\', 'n'] from rfl]
            simp only [List.cons_append, List.nil_append]
            rw [parseStringBody_backslash,
              parseEscape_single 'n' '\n' _ (by decide) rfl, ih]
          · by_cases h4 : c = '\r'
            · subst h4
              rw [show escapeJsonChar '\r' = ['\\', 'r'] from rfl]
              simp only [List.cons_append, List.nil_append]
              rw [parseStringBody_backslash,
                parseEscape_single 'r' '\r' _ (by decide) rfl, ih]
            · by_cases h5 : c = '\t'
              · subst h5
                rw [show escapeJsonChar '\t' = ['\\', 't'] from rfl]
                simp only [List.cons_append, List.nil_append]
                rw [parseStringBody_backslash,
                  parseEscape_single 't' '\t' _ (by decide) rfl, ih]
              · by_cases h6 : c = '\x08'
                · subst h6
                  rw [show escapeJsonChar '\x08' = ['\\', 'b'] from rfl]
                  simp only [List.cons_append, List.nil_append]
                  rw [parseStringBody_backslash,
                    parseEscape_single 'b' '\x08' _ (by decide) rfl, ih]
                · by_cases h7 : c = '\x0c'
                  · subst h7
                    rw [show escapeJsonChar '\x0c' = ['\\', 'f'] from rfl]
                    simp only [List.cons_append, List.nil_append]
                    rw [parseStringBody_backslash,
                      parseEscape_single 'f' '\x0c' _ (by decide) rfl, ih]
                  · by_cases h8 : c.toNat < 0x20
                    · rw [escapeJsonChar_ctl c h1 h2 h3 h4 h5 h6 h7 h8]
                      simp only [List.cons_append, List.nil_append]
                      rw [parseStringBody_backslash,
                        parseEscape_u '0' '0' _ _ 0 0 (c.toNat / 16)
                          (c.toNat % 16) _ rfl rfl
                          (hexVal_hexDigitChar _ (by omega))
                          (hexVal_hexDigitChar _ (by omega)), ih]
                      have hval : ((0 * 16 + 0) * 16 + c.toNat / 16) * 16 +
                          c.toNat % 16 = c.toNat := by omega
                      rw [hval, Char.ofNat_toNat]
                    · rw [escapeJsonChar_other c h1 h2 h3 h4 h5 h6 h7 h8]
                      simp only [List.cons_append, List.nil_append]
                      rw [parseStringBody_other c _ h1 h2, ih]

/-! ## Helper lemmas: whitespace, token heads and `parseValue` reductions -/

theorem char_ne_of_toNat_ne {a b : Char} (h : a.toNat ≠ b.toNat) : a ≠ b :=
  fun he => h (he ▸ rfl)

theorem skipWs_append_ws (pre l : List Char)
    (hpre : ∀ c ∈ pre, isJsonWs c = true) :
    skipWs (pre ++ l) = skipWs l :=
  dropWhile_append_of_all l hpre

theorem skipWs_cons_not (c : Char) (l : List Char) (h : isJsonWs c = false) :
    skipWs (c :: l) = c :: l := by
  unfold skipWs
  simp [List.dropWhile_cons, h]

theorem mem_indentChars (lvl : Nat) :
    ∀ c ∈ indentChars lvl, isJsonWs c = true := by
  intro c hc
  unfold indentChars at hc
  rw [List.eq_of_mem_replicate hc]
  decide

theorem isJsonWs_not_digit (c : Char) (h : isJsonWs c = true) :
    isDigitChar c = false := by
  unfold isJsonWs at h
  simp only [Bool.decide_or, Bool.or_eq_true, decide_eq_true_eq] at h
  rcases h with rfl | rfl | rfl | rfl <;> decide

theorem intToDigits_start (n : Int) :
    ∃ c t, intToDigits n = c :: t ∧ (c = '-' ∨ isDigitChar c = true) := by
  unfold intToDigits
  split
  · exact ⟨'-', natToDigits n.natAbs, rfl, Or.inl rfl⟩
  · rcases hd : natToDigits n.toNat with _ | ⟨c, t⟩
    · exact absurd hd (natToDigits_ne_nil _)
    · exact ⟨c, t, rfl, Or.inr (natToDigits_all_digits _ c
        (by rw [hd]; exact List.mem_cons_self c t))⟩

theorem stringifyVal_start (lvl : Nat) (v : JsValue) :
    ∃ c t, stringifyVal lvl v = c :: t ∧ goodStart c = true := by
  cases v with
  | null => exact ⟨'n', _, rfl, by decide⟩
  | bool b =>
      cases b
      · exact ⟨'f', _, rfl, by decide⟩
      · exact ⟨'t', _, rfl, by decide⟩
  | num n =>
      obtain ⟨c, t, hct, hc⟩ := intToDigits_start n
      refine ⟨c, t, by rw [stringifyVal, hct], ?_⟩
      unfold goodStart
      rcases hc with rfl | hc
      · decide
      · simp [hc]
  | str s => exact ⟨'"', _, rfl, by decide⟩
  | arr xs =>
      cases xs
      · exact ⟨'[', _, rfl, by decide⟩
      · exact ⟨'[', _, rfl, by decide⟩
  | obj fs =>
      cases fs
      · exact ⟨'\x7b', _, rfl, by decide⟩
      · exact ⟨'\x7b', _, rfl, by decide⟩

theorem digit_ne_lits (c : Char) (hd : isDigitChar c = true) :
    isJsonWs c = false ∧ ¬ (c = ']') ∧ ¬ (c = '\x7d') ∧ ¬ (c = ',') ∧
      ¬ (c = ':') ∧ ¬ (c = 'n') ∧ ¬ (c = 't') ∧ ¬ (c = 'f') ∧
      ¬ (c = '"') ∧ ¬ (c = '[') ∧ ¬ (c = '\x7b') ∧ ¬ (c = '-') := by
  have hn : 48 ≤ c.toNat ∧ c.toNat ≤ 57 := by
    unfold isDigitChar at hd
    simp only [Bool.decide_and, Bool.and_eq_true, decide_eq_true_eq] at hd
    exact ⟨hd.1, hd.2⟩
  obtain ⟨hn1, hn2⟩ := hn
  refine ⟨?_, ?_, ?_, ?_, ?_, ?_, ?_, ?_, ?_, ?_, ?_, ?_⟩
  · rcases hjs : isJsonWs c
    · rfl
    · rw [isJsonWs_not_digit c hjs] at hd
      exact absurd hd (by simp)
  · exact char_ne_of_toNat_ne (by have h : (']').toNat = 93 := rfl; omega)
  · exact char_ne_of_toNat_ne (by have h : ('\x7d').toNat = 125 := rfl; omega)
  · exact char_ne_of_toNat_ne (by have h : (',').toNat = 44 := rfl; omega)
  · exact char_ne_of_toNat_ne (by have h : (':').toNat = 58 := rfl; omega)
  · exact char_ne_of_toNat_ne (by have h : ('n').toNat = 110 := rfl; omega)
  · exact char_ne_of_toNat_ne (by have h : ('t').toNat = 116 := rfl; omega)
  · exact char_ne_of_toNat_ne (by have h : ('f').toNat = 102 := rfl; omega)
  · exact char_ne_of_toNat_ne (by have h : ('"').toNat = 34 := rfl; omega)
  · exact char_ne_of_toNat_ne (by have h : ('[').toNat = 91 := rfl; omega)
  · exact char_ne_of_toNat_ne (by have h : ('\x7b').toNat = 123 := rfl; omega)
  · exact char_ne_of_toNat_ne (by have h : ('-').toNat = 45 := rfl; omega)

theorem goodStart_not_ws (c : Char) (h : goodStart c = true) :
    isJsonWs c = false ∧ ¬ (c = ']') ∧ ¬ (c = '\x7d') := by
  unfold goodStart at h
  simp only [Bool.decide_or, Bool.or_eq_true, decide_eq_true_eq] at h
  rcases h with rfl | rfl | rfl | rfl | rfl | rfl | rfl | hd
  · exact ⟨by decide, by decide, by decide⟩
  · exact ⟨by decide, by decide, by decide⟩
  · exact ⟨by decide, by decide, by decide⟩
  · exact ⟨by decide, by decide, by decide⟩
  · exact ⟨by decide, by decide, by decide⟩
  · exact ⟨by decide, by decide, by decide⟩
  · exact ⟨by decide, by decide, by decide⟩
  · obtain ⟨h1, h2, h3, -⟩ := digit_ne_lits c hd
    exact ⟨h1, h2, h3⟩

theorem parseValue_null (fuel : Nat) (s r' : List Char)
    (h : skipWs s = 'n' :: 'u' :: 'l' :: 'l' :: r') :
    parseValue (fuel + 1) s = some (.null, r') := by
  simp [parseValue, h]

theorem parseValue_true (fuel : Nat) (s r' : List Char)
    (h : skipWs s = 't' :: 'r' :: 'u' :: 'e' :: r') :
    parseValue (fuel + 1) s = some (.bool true, r') := by
  simp [parseValue, h]

theorem parseValue_false (fuel : Nat) (s r' : List Char)
    (h : skipWs s = 'f' :: 'a' :: 'l' :: 's' :: 'e' :: r') :
    parseValue (fuel + 1) s = some (.bool false, r') := by
  simp [parseValue, h]

theorem parseValue_str (fuel : Nat) (s r : List Char)
    (h : skipWs s = '"' :: r) :
    parseValue (fuel + 1) s =
      match parseStringBody r with
      | some (str, r') => some (.str str, r')
      | none => none := by
  simp [parseValue, h]

theorem parseValue_arr (fuel : Nat) (s r : List Char)
    (h : skipWs s = '[' :: r) :
    parseValue (fuel + 1) s =
      (if (skipWs r).head? = some ']' then some (.arr [], (skipWs r).tail)
       else
        match parseElems fuel (skipWs r) with
        | some (xs, r') => some (.arr xs, r')
        | none => none) := by
  simp [parseValue, h]

theorem parseValue_obj (fuel : Nat) (s r : List Char)
    (h : skipWs s = '\x7b' :: r) :
    parseValue (fuel + 1) s =
      (if (skipWs r).head? = some '\x7d' then some (.obj [], (skipWs r).tail)
       else
        match parseFields fuel [] (skipWs r) with
        | some (fs, r') => some (.obj fs, r')
        | none => none) := by
  simp [parseValue, h]

theorem parseValue_num (fuel : Nat) (s : List Char) (c : Char)
    (r : List Char) (h : skipWs s = c :: r)
    (h1 : ¬ (c = 'n')) (h2 : ¬ (c = 't')) (h3 : ¬ (c = 'f'))
    (h4 : ¬ (c = '"')) (h5 : ¬ (c = '[')) (h6 : ¬ (c = '\x7b')) :
    parseValue (fuel + 1) s = parseNumber (c :: r) := by
  simp [parseValue, h, h1, h2, h3, h4, h5, h6]

theorem parseElems_step (fuel : Nat) (s : List Char) :
    parseElems (fuel + 1) s =
      match parseValue fuel s with
      | none => none
      | some (v, r) =>
          if (skipWs r).head? = some ',' then
            match parseElems fuel (skipWs r).tail with
            | some (vs, r') => some (v :: vs, r')
            | none => none
          else if (skipWs r).head? = some ']' then some ([v], (skipWs r).tail)
          else none := by
  rw [parseElems]

theorem parseFields_step (fuel : Nat) (acc : List (List Char × JsValue))
    (s : List Char) :
    parseFields (fuel + 1) acc s =
      (if (skipWs s).head? = some '"' then
        match parseStringBody (skipWs s).tail with
        | none => none
        | some (k, r) =>
            if (skipWs r).head? = some ':' then
              match parseValue fuel (skipWs r).tail with
              | none => none
              | some (v, r3) =>
                  if (skipWs r3).head? = some ',' then
                    parseFields fuel (setField acc k v) (skipWs r3).tail
                  else if (skipWs r3).head? = some '\x7d' then
                    some (setField acc k v, (skipWs r3).tail)
                  else none
            else none
      else none) := by
  rw [parseFields]

theorem parseValue_ws (fuel : Nat) (pre w : List Char)
    (hpre : ∀ c ∈ pre, isJsonWs c = true) :
    parseValue fuel (pre ++ w) = parseValue fuel w := by
  cases fuel with
  | zero => rfl
  | succ k => rw [parseValue, parseValue, skipWs_append_ws pre w hpre]

theorem headNotDigit_of_close (closing rest : List Char) (c : Char)
    (hc : isDigitChar c = false) (h : skipWs closing = c :: rest) :
    headNotDigit closing = true := by
  cases closing with
  | nil => rfl
  | cons a t =>
      rcases ha : isJsonWs a
      · rw [skipWs_cons_not a t ha] at h
        injection h with h1 _
        subst h1
        unfold headNotDigit
        simp [hc]
      · unfold headNotDigit
        simp [isJsonWs_not_digit a ha]

theorem jsValue_nested_ind (motive : JsValue → Prop)
    (hnull : motive .null) (hbool : ∀ b, motive (.bool b))
    (hnum : ∀ n, motive (.num n)) (hstr : ∀ s, motive (.str s))
    (harr : ∀ xs, (∀ x ∈ xs, motive x) → motive (.arr xs))
    (hobj : ∀ fs, (∀ kv ∈ fs, motive kv.2) → motive (.obj fs)) :
    ∀ v, motive v := by
  have H : ∀ n v, sizeOf v ≤ n → motive v := by
    intro n
    induction n with
    | zero =>
        intro v hv
        cases v <;> simp at hv
    | succ n ih =>
        intro v hv
        cases v with
        | null => exact hnull
        | bool b => exact hbool b
        | num k => exact hnum k
        | str s => exact hstr s
        | arr xs =>
            refine harr xs (fun x hx => ih x ?_)
            have h1 := List.sizeOf_lt_of_mem hx
            simp only [JsValue.arr.sizeOf_spec] at hv
            omega
        | obj fs =>
            refine hobj fs (fun kv hkv => ih kv.2 ?_)
            have h1 := List.sizeOf_lt_of_mem hkv
            obtain ⟨k, v2⟩ := kv
            simp only [JsValue.obj.sizeOf_spec] at hv
            simp only [Prod.mk.sizeOf_spec] at h1
            simp only []
            omega
  exact fun v => H (sizeOf v) v le_rfl

theorem setField_fresh (acc : List (List Char × JsValue)) (k : List Char)
    (v : JsValue) (h : keyFresh k acc = true) :
    setField acc k v = acc ++ [(k, v)] := by
  induction acc with
  | nil => rfl
  | cons g acc ih =>
      obtain ⟨k', v'⟩ := g
      unfold keyFresh at h
      simp only [List.all_cons, Bool.and_eq_true, decide_eq_true_eq] at h
      rw [setField, if_neg h.1]
      rw [ih (by unfold keyFresh; exact h.2)]
      simp

theorem headNotDigit_cons (c : Char) (l : List Char)
    (h : isDigitChar c = false) : headNotDigit (c :: l) = true := by
  unfold headNotDigit
  simp [h]

theorem skipWs_comma (l : List Char) : skipWs (',' :: l) = ',' :: l :=
  skipWs_cons_not ',' l (by decide)

theorem parseElems_print (lvl : Nat) (x : JsValue) (xs : List JsValue)
    (hRT : ∀ y ∈ x :: xs, ∀ lvl fuel rest, fuelFor y ≤ fuel →
      headNotDigit rest = true →
      parseValue fuel (stringifyVal lvl y ++ rest) = some (y, rest)) :
    ∀ (x' : JsValue), x' ∈ x :: xs → ∀ (xs' : List JsValue) fuel pre closing rest,
    (∀ y ∈ x' :: xs', y ∈ x :: xs) →
    (∀ c ∈ pre, isJsonWs c = true) →
    fuelForElems x' xs' ≤ fuel →
    skipWs closing = ']' :: rest →
    parseElems fuel
      (pre ++ stringifyVal lvl x' ++ stringifyMoreElems lvl xs' ++ closing) =
      some (x' :: xs', rest) := by
  intro x' _ xs'
  induction xs' generalizing x' with
  | nil =>
      intro fuel pre closing rest hsub hpre hfuel hclose
      obtain ⟨k, rfl⟩ : ∃ k, fuel = k + 1 :=
        ⟨fuel - 1, by unfold fuelForElems at hfuel; omega⟩
      rw [parseElems_step]
      have hfx : fuelFor x' ≤ k := by
        unfold fuelForElems at hfuel; omega
      have hnd : headNotDigit closing = true :=
        headNotDigit_of_close closing rest ']' (by decide) hclose
      have hpv : parseValue k
          (pre ++ stringifyVal lvl x' ++ stringifyMoreElems lvl [] ++ closing) =
          some (x', closing) := by
        simp only [stringifyMoreElems, List.nil_append, List.append_assoc]
        rw [parseValue_ws k pre _ hpre]
        exact hRT x' (hsub x' (by simp)) lvl k closing hfx hnd
      rw [hpv]
      simp [hclose]
  | cons y ys ih =>
      intro fuel pre closing rest hsub hpre hfuel hclose
      obtain ⟨k, rfl⟩ : ∃ k, fuel = k + 1 :=
        ⟨fuel - 1, by unfold fuelForElems at hfuel; omega⟩
      rw [parseElems_step]
      have hfx : fuelFor x' ≤ k := by
        unfold fuelForElems at hfuel; omega
      have hfy : fuelForElems y ys ≤ k := by
        unfold fuelForElems at hfuel; omega
      have hpv : parseValue k
          (pre ++ stringifyVal lvl x' ++ stringifyMoreElems lvl (y :: ys) ++
            closing) =
          some (x', ',' :: '\n' ::
            (indentChars lvl ++ stringifyVal lvl y ++
              stringifyMoreElems lvl ys ++ closing)) := by
        simp only [stringifyMoreElems, List.append_assoc, List.cons_append]
        rw [parseValue_ws k pre _ hpre]
        exact hRT x' (hsub x' (by simp)) lvl k _ hfx
          (headNotDigit_cons ',' _ (by decide))
      rw [hpv]
      simp only [skipWs_comma, List.head?_cons, Option.some.injEq,
        List.tail_cons, if_true]
      have hrec := ih y (hsub y (by simp)) k
        ('\n' :: indentChars lvl) closing rest
        (fun z hz => hsub z (List.mem_cons_of_mem x' hz))
        (by
          intro c hc
          rcases List.mem_cons.mp hc with rfl | hc
          · decide
          · exact mem_indentChars lvl c hc)
        hfy hclose
      simp only [List.append_assoc, List.cons_append] at hrec ⊢
      rw [hrec]

theorem quoteJson_append (s tail : List Char) :
    quoteJson s ++ tail = '"' :: ((s.map escapeJsonChar).flatten ++ '"' :: tail) := by
  unfold quoteJson
  simp [List.append_assoc]

theorem stringifyField_eq (lvl : Nat) (f : List Char × JsValue) :
    stringifyField lvl f =
      quoteJson f.1 ++ ':' :: ' ' :: stringifyVal lvl f.2 := by
  obtain ⟨k, v⟩ := f
  rfl

theorem keyFresh_append_one (k : List Char) (acc : List (List Char × JsValue))
    (p : List Char × JsValue) (h1 : keyFresh k acc = true)
    (h2 : ¬ (p.1 = k)) : keyFresh k (acc ++ [p]) = true := by
  unfold keyFresh
  rw [List.all_append]
  unfold keyFresh at h1
  rw [h1]
  simp [h2]

theorem skipWs_colon (l : List Char) : skipWs (':' :: l) = ':' :: l :=
  skipWs_cons_not ':' l (by decide)

theorem parseFields_print (lvl : Nat) :
    ∀ (fs' : List (List Char × JsValue)) (f' : List Char × JsValue)
      (fuel : Nat) (acc : List (List Char × JsValue))
      (pre closing rest : List Char),
    (∀ g ∈ f' :: fs', ∀ lvl fuel rest, fuelFor g.2 ≤ fuel →
      headNotDigit rest = true →
      parseValue fuel (stringifyVal lvl g.2 ++ rest) = some (g.2, rest)) →
    (∀ c ∈ pre, isJsonWs c = true) →
    fuelForFields f' fs' ≤ fuel →
    skipWs closing = '\x7d' :: rest →
    (∀ g ∈ f' :: fs', keyFresh g.1 acc = true) →
    jsWfFields (f' :: fs') = true →
    parseFields fuel acc
      (pre ++ quoteJson f'.1 ++ ':' :: ' ' :: stringifyVal lvl f'.2 ++
        stringifyMoreFields lvl fs' ++ closing) =
      some (acc ++ f' :: fs', rest) := by
  intro fs'
  induction fs' with
  | nil =>
      intro f' fuel acc pre closing rest hRT hpre hfuel hclose hfresh hwf
      obtain ⟨kk, v⟩ := f'
      simp only [] at *
      obtain ⟨k, rfl⟩ : ∃ k, fuel = k + 1 :=
        ⟨fuel - 1, by unfold fuelForFields at hfuel; omega⟩
      have hfv : fuelFor v ≤ k := by
        unfold fuelForFields at hfuel
        omega
      rw [parseFields_step]
      rw [show pre ++ quoteJson kk ++ ':' :: ' ' :: stringifyVal lvl v ++
          stringifyMoreFields lvl [] ++ closing =
        pre ++ ('"' :: ((kk.map escapeJsonChar).flatten ++
          '"' :: (':' :: ' ' :: (stringifyVal lvl v ++ closing)))) from by
        rw [stringifyMoreFields]
        simp [quoteJson, List.append_assoc]]
      rw [skipWs_append_ws _ _ hpre, skipWs_cons_not '"' _ (by decide)]
      simp only [List.head?_cons, Option.some.injEq, List.tail_cons, if_true]
      rw [parseStringBody_escaped]
      simp only [skipWs_colon, List.head?_cons, Option.some.injEq,
        List.tail_cons, if_true]
      have hpv : parseValue k (' ' :: (stringifyVal lvl v ++ closing)) =
          some (v, closing) := by
        rw [show (' ' :: (stringifyVal lvl v ++ closing) : List Char) =
          [' '] ++ (stringifyVal lvl v ++ closing) from rfl]
        rw [parseValue_ws k [' '] _ (by decide)]
        exact hRT (kk, v) (by simp) lvl k closing hfv
          (headNotDigit_of_close closing rest '\x7d' (by decide) hclose)
      rw [hpv]
      simp only [hclose, List.head?_cons, Option.some.injEq, List.tail_cons,
        if_true]
      rw [setField_fresh acc kk v (hfresh (kk, v) (by simp))]
      rw [if_neg (by decide)]
  | cons g gs ih =>
      intro f' fuel acc pre closing rest hRT hpre hfuel hclose hfresh hwf
      obtain ⟨kk, v⟩ := f'
      simp only [] at *
      obtain ⟨k, rfl⟩ : ∃ k, fuel = k + 1 :=
        ⟨fuel - 1, by unfold fuelForFields at hfuel; omega⟩
      have hfv : fuelFor v ≤ k := by
        unfold fuelForFields at hfuel
        omega
      have hfg : fuelForFields g gs ≤ k := by
        unfold fuelForFields at hfuel
        omega
      rw [parseFields_step]
      rw [show pre ++ quoteJson kk ++ ':' :: ' ' :: stringifyVal lvl v ++
          stringifyMoreFields lvl (g :: gs) ++ closing =
        pre ++ ('"' :: ((kk.map escapeJsonChar).flatten ++
          '"' :: (':' :: ' ' :: (stringifyVal lvl v ++
            (',' :: '\n' :: (indentChars lvl ++ stringifyField lvl g ++
              stringifyMoreFields lvl gs ++ closing)))))) from by
        rw [stringifyMoreFields]
        simp [quoteJson, List.append_assoc]]
      rw [skipWs_append_ws _ _ hpre, skipWs_cons_not '"' _ (by decide)]
      simp only [List.head?_cons, Option.some.injEq, List.tail_cons, if_true]
      rw [parseStringBody_escaped]
      simp only [skipWs_colon, List.head?_cons, Option.some.injEq,
        List.tail_cons, if_true]
      have hpv : parseValue k (' ' :: (stringifyVal lvl v ++
          (',' :: '\n' :: (indentChars lvl ++ stringifyField lvl g ++
            stringifyMoreFields lvl gs ++ closing)))) =
          some (v, ',' :: '\n' :: (indentChars lvl ++ stringifyField lvl g ++
            stringifyMoreFields lvl gs ++ closing)) := by
        rw [show (' ' :: (stringifyVal lvl v ++
            (',' :: '\n' :: (indentChars lvl ++ stringifyField lvl g ++
              stringifyMoreFields lvl gs ++ closing))) : List Char) =
          [' '] ++ (stringifyVal lvl v ++
            (',' :: '\n' :: (indentChars lvl ++ stringifyField lvl g ++
              stringifyMoreFields lvl gs ++ closing))) from rfl]
        rw [parseValue_ws k [' '] _ (by decide)]
        exact hRT (kk, v) (by simp) lvl k _ hfv
          (headNotDigit_cons ',' _ (by decide))
      rw [hpv]
      simp only [skipWs_comma, List.head?_cons, Option.some.injEq,
        List.tail_cons, if_true]
      rw [setField_fresh acc kk v (hfresh (kk, v) (by simp))]
      have hwf2 : jsWfFields (g :: gs) = true := by
        rw [jsWfFields] at hwf
        simp only [Bool.and_eq_true] at hwf
        exact hwf.2
      have hkf : keyFresh kk (g :: gs) = true := by
        rw [jsWfFields] at hwf
        simp only [Bool.and_eq_true] at hwf
        exact hwf.1.1
      have hrec := ih g k (acc ++ [(kk, v)]) ('\n' :: indentChars lvl)
        closing rest
        (fun z hz => hRT z (List.mem_cons_of_mem (kk, v) hz))
        (by
          intro c hc
          rcases List.mem_cons.mp hc with rfl | hc
          · decide
          · exact mem_indentChars lvl c hc)
        hfg hclose
        (by
          intro z hz
          refine keyFresh_append_one z.1 acc (kk, v)
            (hfresh z (List.mem_cons_of_mem (kk, v) hz)) ?_
          unfold keyFresh at hkf
          rw [List.all_eq_true] at hkf
          have hne := hkf z hz
          simp only [decide_eq_true_eq] at hne
          simp only []
          intro he
          exact hne he.symm)
        hwf2
      rw [stringifyField_eq lvl g]
      simp only [List.append_assoc, List.cons_append] at hrec ⊢
      rw [hrec]
      simp

theorem jsWfList_mem (l : List JsValue) (h : jsWfList l = true) :
    ∀ y ∈ l, jsWf y = true := by
  induction l with
  | nil => simp
  | cons x xs ih =>
      rw [jsWfList] at h
      simp only [Bool.and_eq_true] at h
      intro y hy
      rcases List.mem_cons.mp hy with rfl | hy
      · exact h.1
      · exact ih h.2 y hy

theorem jsWfFields_mem (fs : List (List Char × JsValue))
    (h : jsWfFields fs = true) : ∀ g ∈ fs, jsWf g.2 = true := by
  induction fs with
  | nil => simp
  | cons f fs ih =>
      obtain ⟨k, v⟩ := f
      rw [jsWfFields] at h
      simp only [Bool.and_eq_true] at h
      intro g hg
      rcases List.mem_cons.mp hg with rfl | hg
      · exact h.1.2
      · exact ih h.2 g hg

theorem parseValue_stringify (v : JsValue) : jsWf v = true →
    ∀ lvl fuel rest, fuelFor v ≤ fuel → headNotDigit rest = true →
      parseValue fuel (stringifyVal lvl v ++ rest) = some (v, rest) := by
  induction v using jsValue_nested_ind with
  | hnull =>
      intro _ lvl fuel rest hf hr
      obtain ⟨k, rfl⟩ : ∃ k, fuel = k + 1 :=
        ⟨fuel - 1, by simp [fuelFor] at hf; omega⟩
      refine parseValue_null k _ rest ?_
      rw [show stringifyVal lvl .null ++ rest =
        'n' :: 'u' :: 'l' :: 'l' :: rest from rfl]
      exact skipWs_cons_not 'n' _ (by decide)
  | hbool b =>
      intro _ lvl fuel rest hf hr
      obtain ⟨k, rfl⟩ : ∃ k, fuel = k + 1 :=
        ⟨fuel - 1, by simp [fuelFor] at hf; omega⟩
      cases b
      · refine parseValue_false k _ rest ?_
        rw [show stringifyVal lvl (.bool false) ++ rest =
          'f' :: 'a' :: 'l' :: 's' :: 'e' :: rest from rfl]
        exact skipWs_cons_not 'f' _ (by decide)
      · refine parseValue_true k _ rest ?_
        rw [show stringifyVal lvl (.bool true) ++ rest =
          't' :: 'r' :: 'u' :: 'e' :: rest from rfl]
        exact skipWs_cons_not 't' _ (by decide)
  | hnum n =>
      intro _ lvl fuel rest hf hr
      obtain ⟨k, rfl⟩ : ∃ k, fuel = k + 1 :=
        ⟨fuel - 1, by simp [fuelFor] at hf; omega⟩
      obtain ⟨c, t, hct, hc⟩ := intToDigits_start n
      have hprint : stringifyVal lvl (.num n) = intToDigits n := rfl
      have hne : ¬ (c = 'n') ∧ ¬ (c = 't') ∧ ¬ (c = 'f') ∧ ¬ (c = '"') ∧
          ¬ (c = '[') ∧ ¬ (c = '\x7b') ∧ isJsonWs c = false := by
        rcases hc with rfl | hd
        · exact ⟨by decide, by decide, by decide, by decide, by decide,
            by decide, by decide⟩
        · obtain ⟨h1, -, -, -, -, h6, h7, h8, h9, h10, h11, -⟩ :=
            digit_ne_lits c hd
          exact ⟨h6, h7, h8, h9, h10, h11, h1⟩
      have hskip : skipWs (stringifyVal lvl (.num n) ++ rest) =
          c :: (t ++ rest) := by
        rw [hprint, hct]
        exact skipWs_cons_not c _ hne.2.2.2.2.2.2
      rw [parseValue_num k _ c (t ++ rest) hskip hne.1 hne.2.1 hne.2.2.1
        hne.2.2.2.1 hne.2.2.2.2.1 hne.2.2.2.2.2.1]
      rw [show c :: (t ++ rest) = (c :: t) ++ rest from rfl, ← hct]
      exact parseNumber_intToDigits n rest hr
  | hstr s =>
      intro _ lvl fuel rest hf hr
      obtain ⟨k, rfl⟩ : ∃ k, fuel = k + 1 :=
        ⟨fuel - 1, by simp [fuelFor] at hf; omega⟩
      have hq : stringifyVal lvl (.str s) ++ rest =
          '"' :: ((s.map escapeJsonChar).flatten ++ '"' :: rest) := by
        rw [show stringifyVal lvl (.str s) = quoteJson s from rfl]
        exact quoteJson_append s rest
      rw [parseValue_str k _ _ (by rw [hq]; exact skipWs_cons_not '"' _ (by decide))]
      rw [parseStringBody_escaped]
  | harr xs hmem =>
      intro hwf lvl fuel rest hf hr
      cases xs with
      | nil =>
          obtain ⟨k, rfl⟩ : ∃ k, fuel = k + 1 :=
            ⟨fuel - 1, by simp [fuelFor] at hf; omega⟩
          rw [parseValue_arr k _ (']' :: rest)
            (by
              rw [show stringifyVal lvl (.arr []) ++ rest =
                '[' :: ']' :: rest from rfl]
              exact skipWs_cons_not '[' _ (by decide))]
          rw [skipWs_cons_not ']' _ (by decide)]
          simp
      | cons x xs' =>
          obtain ⟨k, rfl⟩ : ∃ k, fuel = k + 1 :=
            ⟨fuel - 1, by simp [fuelFor] at hf; omega⟩
          have hfel : fuelForElems x xs' ≤ k := by
            simp [fuelFor] at hf
            omega
          have hwfl : ∀ y ∈ x :: xs', jsWf y = true :=
            jsWfList_mem _ (by rw [show jsWf (.arr (x :: xs')) =
              jsWfList (x :: xs') from rfl] at hwf; exact hwf)
          have hRT : ∀ y ∈ x :: xs', ∀ lvl fuel rest, fuelFor y ≤ fuel →
              headNotDigit rest = true →
              parseValue fuel (stringifyVal lvl y ++ rest) = some (y, rest) :=
            fun y hy => hmem y hy (hwfl y hy)
          have hshape : stringifyVal lvl (.arr (x :: xs')) ++ rest =
              '[' :: ('\n' :: (indentChars (lvl + 1) ++
                (stringifyVal (lvl + 1) x ++
                  (stringifyMoreElems (lvl + 1) xs' ++
                    ('\n' :: (indentChars lvl ++ ']' :: rest)))))) := by
            rw [stringifyVal]
            simp [List.append_assoc]
          obtain ⟨c, t, hct, hgs⟩ := stringifyVal_start (lvl + 1) x
          obtain ⟨hws, hne1, hne2⟩ := goodStart_not_ws c hgs
          have hskipr : skipWs ('\n' :: (indentChars (lvl + 1) ++
              (stringifyVal (lvl + 1) x ++
                (stringifyMoreElems (lvl + 1) xs' ++
                  ('\n' :: (indentChars lvl ++ ']' :: rest)))))) =
              stringifyVal (lvl + 1) x ++
                (stringifyMoreElems (lvl + 1) xs' ++
                  ('\n' :: (indentChars lvl ++ ']' :: rest))) := by
            rw [show ('\n' :: (indentChars (lvl + 1) ++
                (stringifyVal (lvl + 1) x ++
                  (stringifyMoreElems (lvl + 1) xs' ++
                    ('\n' :: (indentChars lvl ++ ']' :: rest))))) : List Char) =
              ('\n' :: indentChars (lvl + 1)) ++
                (stringifyVal (lvl + 1) x ++
                  (stringifyMoreElems (lvl + 1) xs' ++
                    ('\n' :: (indentChars lvl ++ ']' :: rest)))) from by simp]
            rw [skipWs_append_ws _ _ (by
              intro cc hcc
              rcases List.mem_cons.mp hcc with rfl | hcc
              · decide
              · exact mem_indentChars _ cc hcc)]
            rw [hct]
            exact skipWs_cons_not c _ hws
          rw [parseValue_arr k _ _ (by rw [hshape]; exact skipWs_cons_not '[' _ (by decide))]
          rw [hskipr]
          rw [if_neg (by rw [hct]; simp [hne1])]
          have helems := parseElems_print (lvl + 1) x xs' hRT x (by simp) xs' k
            [] ('\n' :: (indentChars lvl ++ ']' :: rest)) rest
            (fun y hy => hy)
            (by simp)
            hfel
            (by
              rw [show ('\n' :: (indentChars lvl ++ ']' :: rest) : List Char) =
                ('\n' :: indentChars lvl) ++ (']' :: rest) from by simp]
              rw [skipWs_append_ws _ _ (by
                intro cc hcc
                rcases List.mem_cons.mp hcc with rfl | hcc
                · decide
                · exact mem_indentChars _ cc hcc)]
              exact skipWs_cons_not ']' _ (by decide))
          simp only [List.nil_append, List.append_assoc] at helems
          rw [hct] at helems ⊢
          simp only [List.cons_append, List.append_assoc] at helems ⊢
          rw [helems]
  | hobj fs hmem =>
      intro hwf lvl fuel rest hf hr
      cases fs with
      | nil =>
          obtain ⟨k, rfl⟩ : ∃ k, fuel = k + 1 :=
            ⟨fuel - 1, by simp [fuelFor] at hf; omega⟩
          rw [parseValue_obj k _ ('\x7d' :: rest)
            (by
              rw [show stringifyVal lvl (.obj []) ++ rest =
                '\x7b' :: '\x7d' :: rest from rfl]
              exact skipWs_cons_not '\x7b' _ (by decide))]
          rw [skipWs_cons_not '\x7d' _ (by decide)]
          simp
      | cons f fs' =>
          obtain ⟨k, rfl⟩ : ∃ k, fuel = k + 1 :=
            ⟨fuel - 1, by simp [fuelFor] at hf; omega⟩
          have hffl : fuelForFields f fs' ≤ k := by
            simp [fuelFor] at hf
            omega
          have hwff : jsWfFields (f :: fs') = true := by
            rw [show jsWf (.obj (f :: fs')) =
              jsWfFields (f :: fs') from rfl] at hwf
            exact hwf
          have hRT : ∀ g ∈ f :: fs', ∀ lvl fuel rest, fuelFor g.2 ≤ fuel →
              headNotDigit rest = true →
              parseValue fuel (stringifyVal lvl g.2 ++ rest) = some (g.2, rest) :=
            fun g hg => hmem g hg (jsWfFields_mem _ hwff g hg)
          have hshape : stringifyVal lvl (.obj (f :: fs')) ++ rest =
              '\x7b' :: ('\n' :: (indentChars (lvl + 1) ++
                (quoteJson f.1 ++ (':' :: ' ' :: (stringifyVal (lvl + 1) f.2 ++
                  (stringifyMoreFields (lvl + 1) fs' ++
                    ('\n' :: (indentChars lvl ++ '\x7d' :: rest)))))))) := by
            rw [stringifyVal, stringifyField_eq]
            simp [List.append_assoc]
          have hskipr : skipWs ('\n' :: (indentChars (lvl + 1) ++
              (quoteJson f.1 ++ (':' :: ' ' :: (stringifyVal (lvl + 1) f.2 ++
                (stringifyMoreFields (lvl + 1) fs' ++
                  ('\n' :: (indentChars lvl ++ '\x7d' :: rest)))))))) =
              quoteJson f.1 ++ (':' :: ' ' :: (stringifyVal (lvl + 1) f.2 ++
                (stringifyMoreFields (lvl + 1) fs' ++
                  ('\n' :: (indentChars lvl ++ '\x7d' :: rest))))) := by
            rw [show ('\n' :: (indentChars (lvl + 1) ++
                (quoteJson f.1 ++ (':' :: ' ' :: (stringifyVal (lvl + 1) f.2 ++
                  (stringifyMoreFields (lvl + 1) fs' ++
                    ('\n' :: (indentChars lvl ++ '\x7d' :: rest))))))) : List Char) =
              ('\n' :: indentChars (lvl + 1)) ++
                (quoteJson f.1 ++ (':' :: ' ' :: (stringifyVal (lvl + 1) f.2 ++
                  (stringifyMoreFields (lvl + 1) fs' ++
                    ('\n' :: (indentChars lvl ++ '\x7d' :: rest)))))) from by simp]
            rw [skipWs_append_ws _ _ (by
              intro cc hcc
              rcases List.mem_cons.mp hcc with rfl | hcc
              · decide
              · exact mem_indentChars _ cc hcc)]
            rw [quoteJson_append]
            exact skipWs_cons_not '"' _ (by decide)
          rw [parseValue_obj k _ _ (by rw [hshape]; exact skipWs_cons_not '\x7b' _ (by decide))]
          rw [hskipr]
          rw [if_neg (by rw [quoteJson_append]; simp)]
          have hfields := parseFields_print (lvl + 1) fs' f k []
            [] ('\n' :: (indentChars lvl ++ '\x7d' :: rest)) rest
            hRT
            (by simp)
            hffl
            (by
              rw [show ('\n' :: (indentChars lvl ++ '\x7d' :: rest) : List Char) =
                ('\n' :: indentChars lvl) ++ ('\x7d' :: rest) from by simp]
              rw [skipWs_append_ws _ _ (by
                intro cc hcc
                rcases List.mem_cons.mp hcc with rfl | hcc
                · decide
                · exact mem_indentChars _ cc hcc)]
              exact skipWs_cons_not '\x7d' _ (by decide))
            (by intro g hg; rfl)
            hwff
          simp only [List.nil_append, List.append_assoc] at hfields
          rw [quoteJson_append] at hfields ⊢
          simp only [List.cons_append, List.append_assoc] at hfields ⊢
          rw [hfields]

theorem fuelForElems_le (lvl : Nat) : ∀ (xs : List JsValue) (x : JsValue),
    (∀ y ∈ x :: xs, fuelFor y ≤ (stringifyVal lvl y).length + 1) →
    fuelForElems x xs ≤
      (stringifyVal lvl x).length + (stringifyMoreElems lvl xs).length + 3 := by
  intro xs
  induction xs with
  | nil =>
      intro x hall
      have hx := hall x (by simp)
      rw [fuelForElems, stringifyMoreElems]
      simp only [List.length_nil]
      omega
  | cons y ys ih =>
      intro x hall
      have hx := hall x (by simp)
      have hy := ih y (fun z hz => hall z (by
        rcases List.mem_cons.mp hz with rfl | hz
        · simp
        · simp [hz]))
      rw [fuelForElems, stringifyMoreElems]
      simp only [List.length_cons, List.length_append]
      omega

theorem fuelForFields_le (lvl : Nat) :
    ∀ (fs : List (List Char × JsValue)) (f : List Char × JsValue),
    (∀ g ∈ f :: fs, fuelFor g.2 ≤ (stringifyVal lvl g.2).length + 1) →
    fuelForFields f fs ≤
      (stringifyField lvl f).length + (stringifyMoreFields lvl fs).length + 3 := by
  intro fs
  induction fs with
  | nil =>
      intro f hall
      obtain ⟨k, v⟩ := f
      have hx : fuelFor v ≤ (stringifyVal lvl v).length + 1 := hall (k, v) (by simp)
      rw [fuelForFields, stringifyMoreFields, stringifyField]
      simp only [List.length_nil, List.length_append, List.length_cons]
      omega
  | cons g gs ih =>
      intro f hall
      obtain ⟨k, v⟩ := f
      obtain ⟨gk, gv⟩ := g
      have hx : fuelFor v ≤ (stringifyVal lvl v).length + 1 := hall (k, v) (by simp)
      have hy := ih (gk, gv) (fun z hz => hall z (by
        rcases List.mem_cons.mp hz with rfl | hz
        · simp
        · simp [hz]))
      rw [fuelForFields, stringifyMoreFields]
      simp only [stringifyField] at hy ⊢
      simp only [List.length_cons, List.length_append] at hy ⊢
      omega

theorem fuelFor_le_print (v : JsValue) :
    ∀ lvl, fuelFor v ≤ (stringifyVal lvl v).length + 1 := by
  induction v using jsValue_nested_ind with
  | hnull => intro lvl; simp [fuelFor]
  | hbool b => intro lvl; simp [fuelFor]
  | hnum n => intro lvl; simp [fuelFor]
  | hstr s => intro lvl; simp [fuelFor]
  | harr xs hmem =>
      intro lvl
      cases xs with
      | nil => simp [fuelFor]
      | cons x xs' =>
          have h := fuelForElems_le (lvl + 1) xs' x
            (fun y hy => hmem y hy (lvl + 1))
          rw [fuelFor, stringifyVal]
          simp only [List.length_cons, List.length_append]
          omega
  | hobj fs hmem =>
      intro lvl
      cases fs with
      | nil => simp [fuelFor]
      | cons f fs' =>
          obtain ⟨k2, v2⟩ := f
          have h := fuelForFields_le (lvl + 1) fs' (k2, v2)
            (fun g hg => hmem g hg (lvl + 1))
          rw [fuelFor, stringifyVal]
          rw [stringifyField] at h ⊢
          simp only [List.length_cons, List.length_append] at h ⊢
          omega

theorem parseJson_stringify (v : JsValue) (hwf : jsWf v = true) :
    parseJson (stringifyVal 0 v) = some v := by
  rw [parseJson]
  have hrt := parseValue_stringify v hwf 0 ((stringifyVal 0 v).length + 1) []
    (by have := fuelFor_le_print v 0; omega) (by rw [headNotDigit])
  rw [List.append_nil] at hrt
  rw [hrt]
  simp [skipWs]


theorem assocGet_assocSet_self (st : StrStore) (k : String) (v : List Char) :
    assocGet (assocSet st k v) k = some v := by
  induction st with
  | nil => simp [assocSet, assocGet]
  | cons p rest ih =>
      obtain ⟨pk, pv⟩ := p
      by_cases h : pk = k
      · simp [assocSet, assocGet, h]
      · simp [assocSet, assocGet, h, ih]

theorem stringifyVal_ne_nil (lvl : Nat) (v : JsValue) :
    ¬ stringifyVal lvl v = [] := by
  obtain ⟨c, t, hct, -⟩ := stringifyVal_start lvl v
  rw [hct]
  simp

/-- C8: in each fixed environment, a read after a write of a well-formed
value returns the stored value with `normalizeImageUrls` applied — not, in
general, the value unchanged. -/
theorem readDataFile_writeDataFile (env : StorageEnv) (filename : String)
    (data : JsValue) (st : StorageState) (hwf : jsWf data = true) :
    readDataFile env filename (writeDataFile env filename data st) =
      some (normalizeImageUrls data) := by
  cases env with
  | serverless =>
      simp only [readDataFile, writeDataFile, assocGet_assocSet_self]
      rw [if_neg (stringifyVal_ne_nil 0 data)]
      simp only [parseJson_stringify data hwf]
  | localDev =>
      simp only [readDataFile, writeDataFile, assocGet_assocSet_self]
      simp only [parseJson_stringify data hwf]

theorem readDataFile_writeDataFile_witness :
    jsWf (JsValue.obj [("a".data, JsValue.num 1)]) = true ∧
    readDataFile .localDev "x.json"
      (writeDataFile .localDev "x.json"
        (JsValue.obj [("a".data, JsValue.num 1)]) ⟨[], []⟩) =
      some (normalizeImageUrls (JsValue.obj [("a".data, JsValue.num 1)])) :=
  ⟨rfl, readDataFile_writeDataFile .localDev "x.json"
    (JsValue.obj [("a".data, JsValue.num 1)]) ⟨[], []⟩ rfl⟩

/-- C8 counterexample: an `imageUrl` value containing a backslash comes back
changed (the backslash rewritten to a forward slash), so read-after-write is
not the identity. -/
theorem readDataFile_writeDataFile_counterexample :
    ¬ readDataFile .serverless "projects.json"
      (writeDataFile .serverless "projects.json"
        (JsValue.obj [("imageUrl".data, JsValue.str ['a', '\\', 'b'])])
        ⟨[], []⟩) =
      some (JsValue.obj [("imageUrl".data, JsValue.str ['a', '\\', 'b'])]) := by
  have h : readDataFile .serverless "projects.json"
      (writeDataFile .serverless "projects.json"
        (JsValue.obj [("imageUrl".data, JsValue.str ['a', '\\', 'b'])])
        ⟨[], []⟩) =
      some (JsValue.obj [("imageUrl".data, JsValue.str ['a', '/', 'b'])]) := by
    rfl
  rw [h]
  intro hc
  simp only [Option.some.injEq, JsValue.obj.injEq, List.cons.injEq,
    Prod.mk.injEq, JsValue.str.injEq] at hc
  exact absurd hc.1.2 (by decide)

end Portfolio
